import Mathlib

set_option maxRecDepth 8000

namespace BDMProspect

/-- Convert a string literal to the character list representation used throughout
the embedding.  All engine text is modelled as a list of characters so that
Python character indexing and slicing translate directly. -/
def lc (s : String) : List Char := s.data

/-- The regex character class [A-Z] (ASCII uppercase). -/
def isUpperA (c : Char) : Bool := decide (65 ≤ c.toNat ∧ c.toNat ≤ 90)

/-- The regex character class [a-z] (ASCII lowercase). -/
def isLowerA (c : Char) : Bool := decide (97 ≤ c.toNat ∧ c.toNat ≤ 122)

/-- The regex character class [0-9]. -/
def isDigitA (c : Char) : Bool := decide (48 ≤ c.toNat ∧ c.toNat ≤ 57)

/-- ASCII letter. -/
def isAlphaA (c : Char) : Bool := isUpperA c || isLowerA c

/-- The regex class of word characters (the Python re class for word chars). -/
def isWordA (c : Char) : Bool := isAlphaA c || isDigitA c || decide (c = '_')

/-- Python whitespace for str.strip, str.split and the regex space class:
space, tab, newline, carriage return, vertical tab, form feed. -/
def isSpaceA (c : Char) : Bool :=
  decide (c = ' ' ∨ c = '\t' ∨ c = '\n' ∨ c = '\r' ∨ c = '\x0b' ∨ c = '\x0c')

/-- ASCII lowercasing of one character, modelling str.lower on the ASCII inputs
the engine handles. -/
def lowerC (c : Char) : Char := if isUpperA c then Char.ofNat (c.toNat + 32) else c

/-- str.lower over a whole text. -/
def lowerL (s : List Char) : List Char := s.map lowerC

/-- Drop leading whitespace. -/
def dropWs : List Char → List Char
  | [] => []
  | c :: cs => if isSpaceA c then dropWs cs else c :: cs

/-- Python str.strip: remove leading and trailing whitespace. -/
def pyStrip (s : List Char) : List Char := dropWs ((dropWs s.reverse).reverse)

/-- Does s start with pat. -/
def startsWithL : List Char → List Char → Bool
  | [], _ => true
  | _ :: _, [] => false
  | p :: ps, c :: cs => decide (p = c) && startsWithL ps cs

/-- Case-insensitive version of startsWithL (ASCII folding). -/
def startsWithCI : List Char → List Char → Bool
  | [], _ => true
  | _ :: _, [] => false
  | p :: ps, c :: cs => decide (lowerC p = lowerC c) && startsWithCI ps cs

/-- Python substring containment: pat in s. -/
def isSubL (pat : List Char) : List Char → Bool
  | [] => startsWithL pat []
  | c :: cs => startsWithL pat (c :: cs) || isSubL pat cs

/-- Case-insensitive substring containment. -/
def isSubCI (pat s : List Char) : Bool := isSubL (lowerL pat) (lowerL s)

/-- Python str.find, returning the index of the first occurrence. -/
def findIdxGo (pat : List Char) : List Char → Nat → Option Nat
  | [], i => if startsWithL pat [] then some i else none
  | c :: cs, i => if startsWithL pat (c :: cs) then some i else findIdxGo pat cs (i + 1)

/-- Python str.find as an Option (none models the -1 result). -/
def findIdxL (pat s : List Char) : Option Nat := findIdxGo pat s 0

/-- Python slice s[a:b] for already clamped nonnegative bounds. -/
def pySlice (s : List Char) (a b : Nat) : List Char := (s.drop a).take (b - a)

/-- Python str.split with a newline separator, keeping empty pieces. -/
def splitNlGo : List Char → List Char → List (List Char)
  | [], acc => [acc.reverse]
  | c :: cs, acc => if c = '\n' then acc.reverse :: splitNlGo cs [] else splitNlGo cs (c :: acc)

/-- Python content.split with a newline argument. -/
def splitNl (s : List Char) : List (List Char) := splitNlGo s []

/-- Python str.split on an explicit nonempty separator string, fuel-driven. -/
def splitSubGo (sep : List Char) : Nat → List Char → List Char → List (List Char)
  | 0, s, acc => [acc.reverse ++ s]
  | _ + 1, [], acc => [acc.reverse]
  | n + 1, c :: cs, acc =>
    if startsWithL sep (c :: cs) then acc.reverse :: splitSubGo sep n (cs.drop (sep.length - 1)) []
    else splitSubGo sep n cs (c :: acc)

/-- Python str.split with a separator argument (used for the two-space split). -/
def splitSub (sep s : List Char) : List (List Char) := splitSubGo sep s.length s []

/-- Python str.split with no argument: whitespace tokenisation dropping empties. -/
def splitWsGo : List Char → List Char → List (List Char)
  | [], acc => if acc.isEmpty then [] else [acc.reverse]
  | c :: cs, acc =>
    if isSpaceA c then (if acc.isEmpty then splitWsGo cs [] else acc.reverse :: splitWsGo cs [])
    else splitWsGo cs (c :: acc)

/-- Python str.split with no argument. -/
def splitWs (s : List Char) : List (List Char) := splitWsGo s []

/-- Helper for rstrip with a slash argument. -/
def dropSlashes : List Char → List Char
  | [] => []
  | c :: cs => if c = '/' then dropSlashes cs else c :: cs

/-- Python str.rstrip with a slash argument. -/
def rstripSlash (s : List Char) : List Char := (dropSlashes s.reverse).reverse

/-- Length of the leading run of characters satisfying f. -/
def runLen (f : Char → Bool) : List Char → Nat
  | [] => 0
  | c :: cs => if f c then runLen f cs + 1 else 0

/-- Python values produced by json.loads, plus the strings the engine stores in
prospect records.  Arrays and objects are represented as constructor chains
(arrCons/objCons ending in arrNil/objNil) so that every engine operation is
plain structural recursion.  A Python None is Json.null. -/
inductive Json where
  | null : Json
  | bool : Bool → Json
  | num : Int → Json
  | str : List Char → Json
  | arrNil : Json
  | arrCons : Json → Json → Json
  | objNil : Json
  | objCons : List Char → Json → Json → Json
deriving Repr

/-- The Python exceptions relevant to the extraction engine. -/
inductive PyErr where
  | attributeError : PyErr
  | typeError : PyErr
  | valueError : PyErr
  | keyError : PyErr
  | indexError : PyErr
deriving Repr, DecidableEq

/-- The exception classes caught by the except clause in the JSON-LD strategy:
ValueError, KeyError, TypeError. -/
def caughtByJsonldExcept : PyErr → Bool
  | .valueError => true
  | .keyError => true
  | .typeError => true
  | _ => false

/-- Python truthiness of a decoded value. -/
def pyTruthy : Json → Bool
  | .null => false
  | .bool b => b
  | .num n => decide (n ≠ 0)
  | .str s => !s.isEmpty
  | .arrNil => false
  | .arrCons _ _ => true
  | .objNil => false
  | .objCons _ _ _ => true

/-- Is the value a Python list. -/
def jIsList : Json → Bool
  | .arrNil => true
  | .arrCons _ _ => true
  | _ => false

/-- Is the value a Python dict. -/
def jIsDict : Json → Bool
  | .objNil => true
  | .objCons _ _ _ => true
  | _ => false

/-- Is the value a Python str. -/
def jIsStr : Json → Bool
  | .str _ => true
  | _ => false

/-- Elements of a list value in order (empty on non-lists). -/
def jElems : Json → List Json
  | .arrCons x xs => x :: jElems xs
  | _ => []

/-- Python dict.get with default None: look a key up in an object chain. -/
def jGet : Json → List Char → Option Json
  | .objCons k v rest, key => if k = key then some v else jGet rest key
  | _, _ => none

/-- Python dict.get with an explicit default value. -/
def jGetD (j : Json) (key : List Char) (dflt : Json) : Json := (jGet j key).getD dflt

/-- Insert or overwrite a key in an object chain, preserving insertion order as
Python dicts do; used by the JSON parser so duplicate keys resolve last-wins. -/
def jSet : Json → List Char → Json → Json
  | .objCons k v rest, key, w =>
    if k = key then .objCons k w rest else .objCons k v (jSet rest key w)
  | .objNil, key, w => .objCons key w .objNil
  | j, _, _ => j

/-- Python equality between decoded values as the dedup membership tests use it.
Numbers and booleans compare across types as in Python (True equals 1).  Dict
comparison is modelled structurally on insertion order; Python dict equality is
order insensitive, a difference only visible for dict-valued identity keys. -/
def pyEqJ : Json → Json → Bool
  | .null, .null => true
  | .bool a, .bool b => decide (a = b)
  | .bool a, .num m => decide ((if a then (1 : Int) else 0) = m)
  | .num n, .bool b => decide (n = (if b then (1 : Int) else 0))
  | .num n, .num m => decide (n = m)
  | .str a, .str b => decide (a = b)
  | .arrNil, .arrNil => true
  | .arrCons x xs, .arrCons y ys => pyEqJ x y && pyEqJ xs ys
  | .objNil, .objNil => true
  | .objCons k v r, .objCons k2 v2 r2 => decide (k = k2) && pyEqJ v v2 && pyEqJ r r2
  | _, _ => false

/-- Python membership test of a value in a list of already seen values. -/
def pyInJ (x : Json) : List Json → Bool
  | [] => false
  | y :: ys => pyEqJ x y || pyInJ x ys

/-- Integer rendering for the str() model. -/
def intDigits (n : Int) : List Char := (toString n).data

/-- Python str()/repr() of a decoded value, as used by the f-string identity
key and the sameAs linkedin containment check.  The first flag selects repr
style (strings quoted) and the second renders chain elements comma separated.
String escaping inside repr is not modelled. -/
def pyReprM : Bool → Bool → Json → List Char
  | _, _, .null => lc "None"
  | _, _, .bool b => if b then lc "True" else lc "False"
  | _, _, .num n => intDigits n
  | reprStyle, _, .str s => if reprStyle then '\x27' :: s ++ ['\x27'] else s
  | _, false, .arrNil => lc "[]"
  | _, false, .arrCons x xs => '[' :: (pyReprM true false x ++ pyReprM true true xs) ++ [']']
  | _, true, .arrNil => []
  | _, true, .arrCons x xs => ',' :: ' ' :: pyReprM true false x ++ pyReprM true true xs
  | _, false, .objNil => [Char.ofNat 123, Char.ofNat 125]
  | _, false, .objCons k v r =>
    Char.ofNat 123 ::
      ('\x27' :: k ++ '\x27' :: ':' :: ' ' :: pyReprM true false v ++ pyReprM true true r) ++
      [Char.ofNat 125]
  | _, true, .objNil => []
  | _, true, .objCons k v r =>
    ',' :: ' ' :: '\x27' :: k ++ '\x27' :: ':' :: ' ' :: pyReprM true false v ++ pyReprM true true r

/-- Python str() of a decoded value. -/
def pyStr (j : Json) : List Char := pyReprM false false j

/-- JSON whitespace accepted between tokens by the decoder. -/
def isJWs (c : Char) : Bool := decide (c = ' ' ∨ c = '\t' ∨ c = '\n' ∨ c = '\r')

/-- Skip JSON inter-token whitespace. -/
def dropJWs : List Char → List Char
  | [] => []
  | c :: cs => if isJWs c then dropJWs cs else c :: cs

/-- One-character JSON string escapes; the unicode escape form is not modelled
and is treated as a decode error. -/
def escChar (c : Char) : Option Char :=
  if c = '"' then some '"'
  else if c = '\\' then some '\\'
  else if c = '/' then some '/'
  else if c = 'b' then some '\x08'
  else if c = 'f' then some '\x0c'
  else if c = 'n' then some '\n'
  else if c = 'r' then some '\r'
  else if c = 't' then some '\t'
  else none

/-- Scan a JSON string body after the opening quote. -/
def parseJStr : List Char → Option (List Char × List Char)
  | [] => none
  | c :: cs =>
    if c = '"' then some ([], cs)
    else if c = '\\' then
      match cs with
      | [] => none
      | e :: cs2 =>
        match escChar e with
        | some ch => (parseJStr cs2).map (fun p => (ch :: p.1, p.2))
        | none => none
    else if decide (c.toNat < 32) then none
    else (parseJStr cs).map (fun p => (c :: p.1, p.2))

/-- Digits to a natural number. -/
def digitsToNat : List Char → Nat → Nat
  | [], acc => acc
  | c :: cs, acc => digitsToNat cs (acc * 10 + (c.toNat - 48))

/-- Fold raw key-value pairs into a dict left to right so that duplicate keys
resolve last-wins, as the Python decoder does. -/
def objFoldSet (acc : Json) : Json → Json
  | .objCons k v r => objFoldSet (jSet acc k v) r
  | _ => acc

/-- Recursive descent JSON value parser, fuel driven.  Mode 0 parses one value,
mode 1 parses the remaining elements of an array after the opening bracket,
mode 2 parses the remaining members of an object.  JSON numbers are modelled as
integers; fractional and exponent syntax is treated as a decode error. -/
def parseJM : Nat → Nat → List Char → Option (Json × List Char)
  | 0, _, _ => none
  | fuel + 1, 0, s0 =>
    match dropJWs s0 with
    | [] => none
    | c :: cs =>
      if c = '"' then (parseJStr cs).map (fun p => (Json.str p.1, p.2))
      else if c = 'n' then
        if startsWithL (lc "ull") cs then some (Json.null, cs.drop 3) else none
      else if c = 't' then
        if startsWithL (lc "rue") cs then some (Json.bool true, cs.drop 3) else none
      else if c = 'f' then
        if startsWithL (lc "alse") cs then some (Json.bool false, cs.drop 4) else none
      else if c = '[' then
        match dropJWs cs with
        | ']' :: r => some (Json.arrNil, r)
        | s2 => parseJM fuel 1 s2
      else if c = Char.ofNat 123 then
        match dropJWs cs with
        | s2 =>
          if startsWithL [Char.ofNat 125] s2 then some (Json.objNil, s2.drop 1)
          else (parseJM fuel 2 s2).map (fun p => (objFoldSet Json.objNil p.1, p.2))
      else if c = '-' || isDigitA c then
        let neg := c = '-'
        let body := if neg then cs else c :: cs
        let n := runLen isDigitA body
        if n = 0 then none
        else if 1 < n ∧ body.headD ' ' = '0' then none
        else
          match body.drop n with
          | '.' :: _ => none
          | 'e' :: _ => none
          | 'E' :: _ => none
          | rest =>
            let m : Int := Int.ofNat (digitsToNat (body.take n) 0)
            some (Json.num (if neg then -m else m), rest)
      else none
  | fuel + 1, 1, s0 =>
    match parseJM fuel 0 s0 with
    | none => none
    | some (v, rest) =>
      match dropJWs rest with
      | ',' :: r2 => (parseJM fuel 1 r2).map (fun p => (Json.arrCons v p.1, p.2))
      | ']' :: r2 => some (Json.arrCons v Json.arrNil, r2)
      | _ => none
  | fuel + 1, 2, s0 =>
    match dropJWs s0 with
    | '"' :: cs =>
      match parseJStr cs with
      | none => none
      | some (key, rest) =>
        match dropJWs rest with
        | ':' :: r2 =>
          match parseJM fuel 0 r2 with
          | none => none
          | some (v, r3) =>
            match dropJWs r3 with
            | ',' :: r4 => (parseJM fuel 2 r4).map (fun p => (Json.objCons key v p.1, p.2))
            | r4 =>
              if startsWithL [Char.ofNat 125] r4 then
                some (Json.objCons key v Json.objNil, r4.drop 1)
              else none
        | _ => none
    | _ => none
  | _ + 1, _ + 3, _ => none

/-- Model of json.loads: decode one JSON document, requiring the whole input to
be consumed; none models the ValueError raised on malformed input. -/
def json_loads (s : List Char) : Option Json :=
  match parseJM (2 * s.length + 4) 0 s with
  | none => none
  | some (v, rest) => if (dropJWs rest).isEmpty then some v else none

/-- A provisional prospect record as built by the extraction strategies.  The
regex, heading and JSON-LD strategies build dicts without a phone key, while
the HTML card strategy includes one; the outer Option on phone records whether
the key is present.  Values that Python would hold as None are Json.null. -/
structure Prospect where
  name : List Char
  title : Json
  company : Json
  email : Json
  phone : Option Json
  linkedin_url : Json
  source : List Char
  confidence : Nat
deriving Repr

/-- Senior-role keywords checked by the confidence scorer. -/
def conf_title_kw : List (List Char) :=
  [lc "CEO", lc "CTO", lc "VP", lc "Director", lc "Manager", lc "Head", lc "Lead",
   lc "Founder", lc "President", lc "CFO", lc "COO"]

/-- Embeds calculate_extraction_confidence (src/backend.py): score 0 to 100
from data completeness.  A truthy non-string title reaches a lower() call in
Python and raises AttributeError, which the error case records. -/
def calculate_extraction_confidence (p : Prospect) : Except PyErr Nat :=
  let score1 : Nat :=
    if !p.name.isEmpty ∧ 2 ≤ (splitWs p.name).length then
      25 + (if (splitWs p.name).length = 2 then 5 else 0)
    else 0
  let r2 : Except PyErr Nat :=
    if pyTruthy p.title then
      match p.title with
      | .str t =>
        .ok (score1 + 20 + (if conf_title_kw.any (fun kw => isSubL (lowerL kw) (lowerL t)) then 5 else 0))
      | _ => .error .attributeError
    else .ok score1
  match r2 with
  | .error e => .error e
  | .ok s2 =>
    let s3 := if pyTruthy p.company then
        s2 + 15 + (if !(pyEqJ p.company (Json.str (lc "Unknown Company"))) then 5 else 0)
      else s2
    let s4 := if pyTruthy p.email then s3 + 15 else s3
    let s5 := if pyTruthy p.linkedin_url then s4 + 10 else s4
    .ok (min 100 s5)

/-- Driver for re.sub: scan left to right, replacing each leftmost match and
continuing after it.  Every pattern used consumes at least one character, so
the input length is enough fuel. -/
def subScanF (f : List Char → Option (List Char × List Char)) : Nat → List Char → List Char
  | 0, s => s
  | _ + 1, [] => []
  | n + 1, c :: cs =>
    match f (c :: cs) with
    | some (repl, rest) => repl ++ subScanF f n rest
    | none => c :: subScanF f n cs

/-- re.sub with a matcher that returns the replacement and the remainder. -/
def pySub (f : List Char → Option (List Char × List Char)) (s : List Char) : List Char :=
  subScanF f s.length s

/-- Consume the literal scheme-and-host prefix of the linkedin markdown-link
pattern: the optional-s http scheme, optional www dot, then the linkedin host
with a trailing slash, case sensitively. -/
def matchLinkedinScheme (s : List Char) : Option (List Char × List Char) :=
  if startsWithL (lc "http") s then
    let s1 := s.drop 4
    let (n1, s2) := if startsWithL (lc "s") s1 then (5, s.drop 5) else (4, s1)
    if startsWithL (lc "://") s2 then
      let s3 := s2.drop 3
      let (n2, s4) := if startsWithL (lc "www.") s3 then (4, s3.drop 4) else (0, s3)
      if startsWithL (lc "linkedin.com/") s4 then
        some (s.take (n1 + 3 + n2 + 13), s4.drop 13)
      else none
    else none
  else none

/-- Matcher for the first markdown cleaning sub: a bracketed label followed by
a parenthesised linkedin url, replaced by label space url. -/
def mdSubLinkedin : List Char → Option (List Char × List Char)
  | '[' :: cs =>
    let label := cs.takeWhile (fun c => c ≠ ']')
    match cs.drop label.length with
    | ']' :: '(' :: rest =>
      match matchLinkedinScheme rest with
      | some (upfx, rest2) =>
        let upart := rest2.takeWhile (fun c => c ≠ ')')
        if upart.isEmpty then none
        else
          match rest2.drop upart.length with
          | ')' :: rest3 => some (label ++ ' ' :: (upfx ++ upart), rest3)
          | _ => none
      | none => none
    | _ => none
  | _ => none

/-- Matcher for a plain markdown link, replaced by its label. -/
def mdSubLink : List Char → Option (List Char × List Char)
  | '[' :: cs =>
    let label := cs.takeWhile (fun c => c ≠ ']')
    match cs.drop label.length with
    | ']' :: '(' :: rest =>
      let inner := rest.takeWhile (fun c => c ≠ ')')
      if inner.isEmpty then none
      else
        match rest.drop inner.length with
        | ')' :: rest2 => some (label, rest2)
        | _ => none
    | _ => none
  | _ => none

/-- Matcher for markdown image syntax, replaced by the alt text. -/
def mdSubImage : List Char → Option (List Char × List Char)
  | '!' :: rest => match mdSubLink rest with
    | some r => some r
    | none => none
  | _ => none

/-- Matcher for a paired one-character or two-character emphasis marker,
replaced by the inner text. -/
def mdSubEmph (mark : Char) (double : Bool) : List Char → Option (List Char × List Char) :=
  fun s =>
    let opener := if double then [mark, mark] else [mark]
    if startsWithL opener s then
      let body := (s.drop opener.length).takeWhile (fun c => c ≠ mark)
      if body.isEmpty then none
      else
        let rest := (s.drop opener.length).drop body.length
        if startsWithL opener rest then some (body, rest.drop opener.length) else none
    else none

/-- Embeds the markdown cleaning block at the top of the regex strategy:
linkedin links become label plus url, other links and images keep only their
label, and emphasis markers are stripped, in source order. -/
def clean_markdown (content : List Char) : List Char :=
  pySub (mdSubEmph '_' false)
    (pySub (mdSubEmph '_' true)
      (pySub (mdSubEmph '*' false)
        (pySub (mdSubEmph '*' true)
          (pySub mdSubImage
            (pySub mdSubLink
              (pySub mdSubLinkedin content))))))

/-- One capitalised word of the name patterns: an uppercase letter followed by
a maximal nonempty run of lowercase letters. -/
def capWord : List Char → Option (List Char × List Char)
  | [] => none
  | c :: cs =>
    if isUpperA c then
      let tail := cs.takeWhile isLowerA
      if tail.isEmpty then none else some (c :: tail, cs.drop tail.length)
    else none

/-- Word-boundary test after a match whose last character is a word character. -/
def boundaryAfter : List Char → Bool
  | [] => true
  | c :: _ => !isWordA c

/-- The captured group of the regex strategy name pattern: two or three
capitalised words separated by single spaces, with a word boundary after.
The optional third word is tried greedily first, as the regex engine does. -/
def matchPersonName (s : List Char) : Option (List Char × List Char) :=
  match capWord s with
  | none => none
  | some (w1, r1) =>
    match r1 with
    | ' ' :: r1b =>
      match capWord r1b with
      | none => none
      | some (w2, r2) =>
        let tryThird : Option (List Char × List Char) :=
          match r2 with
          | ' ' :: r2b =>
            match capWord r2b with
            | some (w3, r3) =>
              if boundaryAfter r3 then some (w1 ++ ' ' :: w2 ++ ' ' :: w3, r3) else none
            | none => none
          | _ => none
        match tryThird with
        | some res => some res
        | none => if boundaryAfter r2 then some (w1 ++ ' ' :: w2, r2) else none
    | _ => none

/-- Embeds finditer over the multiline name pattern of the regex strategy: a
match starts at a line start or at a newline, may take non-newline indent, and
captures the name group.  Returns match starts with their captured groups. -/
def finditerNames : Nat → Nat → Bool → List Char → List (Nat × List Char)
  | 0, _, _, _ => []
  | _ + 1, _, _, [] => []
  | fuel + 1, pos, atLS, c :: cs =>
    let att1 : Option (List Char × Nat) :=
      if atLS then
        let ind := runLen (fun ch => isSpaceA ch && ch ≠ '\n') (c :: cs)
        match matchPersonName ((c :: cs).drop ind) with
        | some (nm, _) => some (nm, ind + nm.length)
        | none => none
      else none
    let att2 : Option (List Char × Nat) :=
      match att1 with
      | some r => some r
      | none =>
        if c = '\n' then
          let ind := runLen (fun ch => isSpaceA ch && ch ≠ '\n') cs
          match matchPersonName (cs.drop ind) with
          | some (nm, _) => some (nm, 1 + ind + nm.length)
          | none => none
        else none
    match att2 with
    | some (nm, len) => (pos, nm) :: finditerNames fuel (pos + len) false ((c :: cs).drop len)
    | none => finditerNames fuel (pos + 1) (c = '\n') cs

/-- The curated deny list of the regex strategy (skip_names in the source). -/
def skip_names : List (List Char) :=
  [lc "LinkedIn", lc "Apple", lc "Google", lc "Facebook", lc "Adobe", lc "MongoDB", lc "Kong",
   lc "FoundationDB", lc "Visual", lc "Sciences", lc "Fire", lc "Darkness", lc "Ring", lc "Test",
   lc "Contact", lc "Backstory", lc "Leadership", lc "Careers", lc "Brand", lc "Fintech",
   lc "Blockchain", lc "Databases", lc "Cloud", lc "Distributed", lc "Reliability", lc "Glossary",
   lc "Cost", lc "Outages", lc "Deterministic", lc "Simulation", lc "Property", lc "Based",
   lc "Autonomous", lc "Testing", lc "Techniques", lc "Catalog", lc "Blockchains", lc "Acid",
   lc "Compliance", lc "Services", lc "Experience", lc "Problems", lc "Security", lc "Manifesto",
   lc "Stories", lc "Working", lc "Antithesis", lc "Primer", lc "Read More", lc "Learn More",
   lc "About Us", lc "Our Team", lc "Join Us", lc "See All", lc "View All", lc "Show More",
   lc "Chief Executive", lc "Chief Technology", lc "Chief Financial", lc "Chief Operating",
   lc "Chief Marketing", lc "Chief Revenue", lc "Chief Product", lc "Chief Information",
   lc "Vice President", lc "General Manager", lc "Managing Director", lc "Privacy Policy",
   lc "Terms Of", lc "All Rights", lc "Follow Us", lc "Get Started", lc "Sign Up", lc "Log In"]

/-- The title keyword vocabulary of the regex strategy. -/
def title_keywords : List (List Char) :=
  [lc "CEO", lc "CTO", lc "CFO", lc "COO", lc "CMO", lc "VP", lc "Director", lc "Manager",
   lc "Head of", lc "Lead", lc "Engineer", lc "Developer", lc "Designer", lc "Founder",
   lc "President", lc "Chief", lc "Officer", lc "Executive", lc "Consultant",
   lc "Architect", lc "Principal", lc "Senior", lc "Junior", lc "Associate", lc "Co-founder",
   lc "Controller", lc "Partner", lc "Analyst", lc "Coordinator", lc "Specialist",
   lc "Recruiter", lc "Advisor", lc "Strategist"]

/-- The company suffix vocabulary of the regex strategy. -/
def company_keywords : List (List Char) :=
  [lc "Inc", lc "Corp", lc "LLC", lc "Ltd", lc "Company", lc "Co.", lc "Technologies",
   lc "Solutions", lc "Services"]

/-- Rank words rejected as the first token of a name. -/
def title_first_words : List (List Char) :=
  [lc "Chief", lc "Vice", lc "Senior", lc "Junior", lc "Lead", lc "Principal",
   lc "Director", lc "Manager", lc "Head", lc "General", lc "Managing"]

/-- Case-insensitive literal consumption. -/
def chompCiLit (lit s : List Char) : Option (List Char) :=
  if startsWithCI lit s then some (s.drop lit.length) else none

/-- Consume a nonempty whitespace run. -/
def chompWsPlus (s : List Char) : Option (List Char) :=
  let n := runLen isSpaceA s
  if n = 0 then none else some (s.drop n)

/-- Consume a nonempty word-character run. -/
def chompWordPlus (s : List Char) : Option (List Char) :=
  let n := runLen isWordA s
  if n = 0 then none else some (s.drop n)

/-- The non-multiline dollar anchor: end of input or a single final newline. -/
def atDollar (s : List Char) : Bool := s.isEmpty || s = ['\n']

/-- Pattern for a chief-underscore-officer shaped title line. -/
def titleOnly1 (s : List Char) : Bool :=
  match chompCiLit (lc "Chief") s with
  | none => false
  | some r1 =>
    match chompWsPlus r1 with
    | none => false
    | some r2 =>
      match chompWordPlus r2 with
      | none => false
      | some r3 =>
        match chompWsPlus r3 with
        | none => false
        | some r4 =>
          match chompCiLit (lc "Officer") r4 with
          | none => false
          | some r5 => atDollar r5

/-- Pattern for a vice-president title line with an optional of-department. -/
def titleOnly2 (s : List Char) : Bool :=
  match chompCiLit (lc "Vice") s with
  | none => false
  | some r1 =>
    match chompWsPlus r1 with
    | none => false
    | some r2 =>
      match chompCiLit (lc "President") r2 with
      | none => false
      | some r3 =>
        let withOf : Option (List Char) :=
          match chompWsPlus r3 with
          | none => none
          | some a =>
            match chompCiLit (lc "of") a with
            | none => none
            | some b =>
              match chompWsPlus b with
              | none => none
              | some c => chompWordPlus c
        match withOf with
        | some r4 => if atDollar r4 then true else atDollar r3
        | none => atDollar r3

/-- Pattern for a leading word followed by of and a department. -/
def titleOnlyOf (lead : List Char) (s : List Char) : Bool :=
  match chompCiLit lead s with
  | none => false
  | some r1 =>
    match chompWsPlus r1 with
    | none => false
    | some r2 =>
      match chompCiLit (lc "of") r2 with
      | none => false
      | some r3 =>
        match chompWsPlus r3 with
        | none => false
        | some r4 =>
          match chompWordPlus r4 with
          | none => false
          | some r5 => atDollar r5

/-- Pattern for a seniority word immediately followed by a role noun. -/
def titleOnly5 (s : List Char) : Bool :=
  let firsts := [lc "Senior", lc "Junior", lc "Lead", lc "Principal"]
  let seconds := [lc "Engineer", lc "Developer", lc "Designer", lc "Architect",
                  lc "Manager", lc "Consultant"]
  firsts.any (fun f =>
    match chompCiLit f s with
    | none => false
    | some r1 =>
      match chompWsPlus r1 with
      | none => false
      | some r2 =>
        seconds.any (fun g =>
          match chompCiLit g r2 with
          | none => false
          | some r3 => atDollar r3))

/-- Embeds the title_only_patterns rejection in is_real_person_name. -/
def title_only_match (s : List Char) : Bool :=
  titleOnly1 s || titleOnly2 s || titleOnlyOf (lc "Director") s || titleOnlyOf (lc "Head") s ||
    titleOnly5 s

/-- Embeds is_real_person_name of the regex strategy: deny-list membership,
per-word deny-list membership, title-only shapes, and rank first words. -/
def is_real_person_name (name : List Char) : Bool :=
  if skip_names.any (fun k => k = name) || decide ((splitWs name).length < 2) then false
  else if (splitWs name).any (fun w => skip_names.any (fun k => k = w)) then false
  else if title_only_match name then false
  else if title_first_words.any (fun w => w = (splitWs name).headD []) then false
  else true

/-- re.match against the exact two-capitalised-word shape used to make sure a
title line is not another person name. -/
def looks_two_token_name (s : List Char) : Bool :=
  match capWord s with
  | some (_, ' ' :: r) =>
    match capWord r with
    | some (_, r2) => atDollar r2
    | none => false
  | _ => false

/-- Inner keyword loop of the title search: the first keyword contained in the
line (case insensitively, line under 150 characters) accepts the line unless
the line is shaped like another two-token person name. -/
def title_kw_scan (ls : List Char) : List (List Char) → Option (List Char)
  | [] => none
  | kw :: kws =>
    if isSubL (lowerL kw) (lowerL ls) && decide (ls.length < 150) then
      if !looks_two_token_name ls then some ls else title_kw_scan ls kws
    else title_kw_scan ls kws

/-- Embeds the title line search of the regex strategy over the first lines
after the anchor: skip empty lines, the anchor itself, and linkedin or url
lines, then accept by keyword. -/
def find_title_lines (name : List Char) : List (List Char) → Option (List Char)
  | [] => none
  | line :: rest =>
    let ls := pyStrip line
    if ls.isEmpty || ls = name then find_title_lines name rest
    else if startsWithL (lc "LinkedIn") ls || startsWithL (lc "http") ls then
      find_title_lines name rest
    else
      match title_kw_scan ls title_keywords with
      | some t => some t
      | none => find_title_lines name rest

/-- Character class inside the company capture: letters, digits, whitespace
and ampersand. -/
def isCompanyMid (c : Char) : Bool := isAlphaA c || isDigitA c || isSpaceA c || c = '&'

/-- Match the company keyword as a regex literal: a dot in the keyword is the
regex any-character and matches anything but a newline. -/
def kwDotMatch : List Char → List Char → Option (List Char)
  | [], _ => some []
  | _ :: _, [] => none
  | k :: ks, c :: cs =>
    if (k = '.' && c ≠ '\n') || k = c then (kwDotMatch ks cs).map (fun r => c :: r)
    else none

/-- Lazy middle of the company capture: at each position first try the keyword,
otherwise consume one class character. -/
def company_mid (kw : List Char) : List Char → Option (List Char)
  | [] => kwDotMatch kw []
  | c :: cs =>
    match kwDotMatch kw (c :: cs) with
    | some consumed => some consumed
    | none => if isCompanyMid c then (company_mid kw cs).map (fun r => c :: r) else none

/-- re.search for the company capture group: leftmost start on an uppercase
letter, then the lazy middle up to the keyword. -/
def company_rx_search (kw : List Char) : List Char → Option (List Char)
  | [] => none
  | c :: cs =>
    match (if isUpperA c then (company_mid kw cs).map (fun r => c :: r) else none) with
    | some g => some g
    | none => company_rx_search kw cs

/-- Embeds the company loop of the regex strategy: for each suffix keyword
contained in the context, search a plus-minus fifty character phrase around
the first occurrence; a capture under 100 characters is kept and ends the
loop, a longer capture is kept provisionally and the loop continues. -/
def company_loop (context : List Char) : List (List Char) → Option (List Char) → Option (List Char)
  | [], acc => acc
  | kw :: kws, acc =>
    if isSubL kw context then
      match findIdxL kw context with
      | some idx =>
        let phrase := pySlice context (idx - 50) (min context.length (idx + 50))
        match company_rx_search kw phrase with
        | some g =>
          let comp := pyStrip g
          if comp.length < 100 then some comp
          else company_loop context kws (some comp)
        | none => company_loop context kws acc
      | none => company_loop context kws acc
    else company_loop context kws acc

/-- Match a linkedin profile url at this position: scheme, optional www, the
given host path prefix, then a nonempty run of the given class. -/
def li_url_at (ci : Bool) (mid : List Char) (cls : Char → Bool) (s : List Char) : Option (List Char) :=
  let sw : List Char → List Char → Bool :=
    fun pat str => if ci then startsWithCI pat str else startsWithL pat str
  if sw (lc "http") s then
    let s1 := s.drop 4
    let (n1, s2) := if sw (lc "s") s1 then (5, s.drop 5) else (4, s1)
    if sw (lc "://") s2 then
      let s3 := s2.drop 3
      let (n2, s4) := if sw (lc "www.") s3 then (4, s3.drop 4) else (0, s3)
      if sw mid s4 then
        let s5 := s4.drop mid.length
        let r := runLen cls s5
        if r = 0 then none else some (s.take (n1 + 3 + n2 + mid.length + r))
      else none
    else none
  else none

/-- re.search for a linkedin url pattern: leftmost match. -/
def li_url_search (ci : Bool) (mid : List Char) (cls : Char → Bool) : List Char → Option (List Char)
  | [] => none
  | c :: cs =>
    match li_url_at ci mid cls (c :: cs) with
    | some m => some m
    | none => li_url_search ci mid cls cs

/-- Embeds extract_linkedin_from_text (src/backend.py): first match of the
personal profile pattern, else first match of the company profile pattern,
both case insensitive with a word-or-dash path. -/
def extract_linkedin_from_text (text : List Char) : Option (List Char) :=
  match li_url_search true (lc "linkedin.com/in/") (fun c => isWordA c || c = '-') text with
  | some m => some m
  | none => li_url_search true (lc "linkedin.com/company/") (fun c => isWordA c || c = '-') text

/-- Character class of the email local part. -/
def isEmailLocalC (c : Char) : Bool :=
  isAlphaA c || isDigitA c || c = '.' || c = '_' || c = '%' || c = '+' || c = '-'

/-- Character class of the email domain part. -/
def isEmailDomC (c : Char) : Bool := isAlphaA c || isDigitA c || c = '.' || c = '-'

/-- Character class of the email top-level-domain part; the source class
literally includes a vertical bar between the letter ranges. -/
def isTldC (c : Char) : Bool := isAlphaA c || c = '|'

/-- Greedy backtracking over the top-level-domain length, longest first, at
least two, requiring a word boundary after. -/
def tld_bt : Nat → List Char → Option Nat
  | 0, _ => none
  | 1, _ => none
  | t + 2, s =>
    let lastC := (s.take (t + 2)).getLastD ' '
    let nextW := match s.drop (t + 2) with | [] => false | c :: _ => isWordA c
    if isWordA lastC ≠ nextW then some (t + 2) else tld_bt (t + 1) s

/-- Greedy backtracking over the domain length, longest first, requiring a dot
then a valid top-level domain. -/
def email_dom_bt (locpart rest : List Char) : Nat → Option (List Char × List Char)
  | 0 => none
  | d + 1 =>
    match rest.drop (d + 1) with
    | '.' :: tldArea =>
      let trun := runLen isTldC tldArea
      match tld_bt trun tldArea with
      | some t =>
        some (locpart ++ '@' :: rest.take (d + 1) ++ '.' :: tldArea.take t, tldArea.drop t)
      | none => email_dom_bt locpart rest d
    | _ => email_dom_bt locpart rest d

/-- Try the email pattern at this position given the previous character, which
decides the leading word boundary. -/
def email_at (prev : Option Char) (s : List Char) : Option (List Char × List Char) :=
  let lrun := runLen isEmailLocalC s
  if lrun = 0 then none
  else
    let c0 := s.headD ' '
    let prevWord := match prev with | some p => isWordA p | none => false
    if isWordA c0 = prevWord then none
    else
      let locpart := s.take lrun
      match s.drop lrun with
      | '@' :: rest =>
        let drun := runLen isEmailDomC rest
        if drun = 0 then none else email_dom_bt locpart rest drun
      | _ => none

/-- re.findall for the email pattern: leftmost non-overlapping matches. -/
def email_findall : Nat → Option Char → List Char → List (List Char)
  | 0, _, _ => []
  | _ + 1, _, [] => []
  | fuel + 1, prev, c :: cs =>
    match email_at prev (c :: cs) with
    | some (m, rest) => m :: email_findall fuel (some (m.getLastD ' ')) rest
    | none => email_findall fuel (some c) cs

/-- All email matches of a text in order. -/
def pyEmailFindall (s : List Char) : List (List Char) := email_findall s.length none s

/-- Role-address markers deprioritised by the email pickers. -/
def email_role_skips : List (List Char) :=
  [lc "noreply", lc "no-reply", lc "support", lc "info@", lc "hello@"]

/-- Embeds the email selection of the regex and card strategies: prefer the
first personal-looking address, fall back to the first match. -/
def pick_email (emails : List (List Char)) : Option (List Char) :=
  match emails with
  | [] => none
  | e0 :: _ =>
    let personal := emails.filter (fun e => !(email_role_skips.any (fun k => isSubL k (lowerL e))))
    some (personal.headD e0)

/-- Lift an optional string field to the stored dict value. -/
def optJ : Option (List Char) → Json
  | some s => Json.str s
  | none => Json.null

/-- Membership of a string in a seen set, modelling the Python in test. -/
def memS (x : List Char) : List (List Char) → Bool
  | [] => false
  | y :: ys => decide (x = y) || memS x ys

/-- Lookup in the seen-title map of the intra-page deduplicator. -/
def lookupT : List (List Char × Nat) → List Char → Option Nat
  | [], _ => none
  | (k, i) :: rest, t => if k = t then some i else lookupT rest t

/-- The seen-title key of a candidate: its title or the empty string,
lowercased and stripped; a truthy non-string title would reach a lower call
in Python and raise AttributeError. -/
def title_lower_of (t : Json) : Except PyErr (List Char) :=
  if pyTruthy t then
    match t with
    | .str s => .ok (pyStrip (lowerL s))
    | _ => .error .attributeError
  else .ok []

/-- Process one confirmed anchor of the regex strategy: bound the context
window at the next anchor or 600 characters, search the first eight lines
after the anchor for a title, the window plus a 100 character lookback for a
company, and the window after the anchor for linkedin and email; emit a
candidate only when a title or company was found. -/
def regex_candidate (content source_url : List Char) (contentLen : Nat)
    (pos : Nat) (name : List Char) (nextPos : Option Nat) : Except PyErr (Option Prospect) :=
  let context_end := match nextPos with
    | some np => min np (pos + 600)
    | none => min contentLen (pos + 600)
  let lookback_start := pos - 100
  let context := pySlice content lookback_start context_end
  let after_name := pySlice content pos context_end
  let title := find_title_lines name ((splitNl after_name).take 8)
  let company := company_loop context company_keywords none
  let linkedin_url := extract_linkedin_from_text after_name
  let email := pick_email (pyEmailFindall after_name)
  if (title.isSome || company.isSome) && !name.isEmpty then
    let p0 : Prospect :=
      { name := name, title := optJ title, company := optJ company, email := optJ email,
        phone := none, linkedin_url := optJ linkedin_url, source := source_url, confidence := 0 }
    match calculate_extraction_confidence p0 with
    | .ok n => .ok (some { p0 with confidence := n })
    | .error e => .error e
  else .ok none

/-- The position of the next confirmed anchor, when there is one. -/
def nextPosOf : List (Nat × List Char) → Option Nat
  | (np, _) :: _ => some np
  | [] => none

/-- The anchor loop of the regex strategy over the filtered person matches. -/
def regex_candidates_loop (content source_url : List Char) (contentLen : Nat) :
    List (Nat × List Char) → Except PyErr (List Prospect)
  | [] => .ok []
  | (pos, name) :: rest =>
    match regex_candidate content source_url contentLen pos name (nextPosOf rest) with
    | .error e => .error e
    | .ok none => regex_candidates_loop content source_url contentLen rest
    | .ok (some p) =>
      match regex_candidates_loop content source_url contentLen rest with
      | .error e => .error e
      | .ok ps => .ok (p :: ps)

/-- Embeds the intra-page deduplication loop at the end of the regex strategy:
skip a candidate whose lowercased name was seen, resolve seen-title collisions
by replacing a kept candidate whose name looks like a title with the new one,
otherwise keep the candidate and register its name and title.  The Python seen
set is modelled as a list tested by membership. -/
def regex_dedup_go :
    List Prospect → List Prospect → List (List Char) → List (List Char × Nat) →
      Except PyErr (List Prospect)
  | [], final, _, _ => .ok final
  | p :: rest, final, seenN, seenT =>
    let name_lower := pyStrip (lowerL p.name)
    match title_lower_of p.title with
    | .error e => .error e
    | .ok title_lower =>
      if memS name_lower seenN then regex_dedup_go rest final seenN seenT
      else
        match (if title_lower.isEmpty then none else lookupT seenT title_lower) with
        | some idx =>
          match final.get? idx with
          | none => .error .indexError
          | some existing =>
            let exLooks := title_keywords.any (fun kw => isSubL (lowerL kw) (lowerL existing.name))
            let newLooks := title_keywords.any (fun kw => isSubL (lowerL kw) (lowerL p.name))
            if exLooks && !newLooks then
              regex_dedup_go rest (final.set idx p)
                (name_lower :: seenN.filter (fun s => s ≠ pyStrip (lowerL existing.name))) seenT
            else regex_dedup_go rest final seenN seenT
        | none =>
          regex_dedup_go rest (final ++ [p]) (name_lower :: seenN)
            (if title_lower.isEmpty then seenT else (title_lower, final.length) :: seenT)

/-- The filtered person anchors of the regex strategy: every name match,
stripped, kept when it passes the person-name filter. -/
def regex_persons (content : List Char) : List (Nat × List Char) :=
  ((finditerNames content.length 0 true content).map (fun pr => (pr.1, pyStrip pr.2))).filter
    (fun pr => is_real_person_name pr.2)

/-- Embeds _extract_regex (src/backend.py): guard on short content, clean the
markdown, find and filter the name anchors, build candidates over bounded
context windows, then deduplicate. -/
def _extract_regex (content0 source_url : List Char) : Except PyErr (List Prospect) :=
  if content0.isEmpty ∨ (pyStrip content0).length < 20 then .ok []
  else
    match regex_candidates_loop (clean_markdown content0) source_url
        (clean_markdown content0).length (regex_persons (clean_markdown content0)) with
    | .error e => .error e
    | .ok raw => regex_dedup_go raw [] [] []

/-- First index of a case-insensitive occurrence. -/
def findCiIdxGo (pat : List Char) : List Char → Nat → Option Nat
  | [], i => if startsWithCI pat [] then some i else none
  | c :: cs, i => if startsWithCI pat (c :: cs) then some i else findCiIdxGo pat cs (i + 1)

/-- First index of a case-insensitive occurrence of pat in s. -/
def findCiIdx (pat s : List Char) : Option Nat := findCiIdxGo pat s 0

/-- Matcher for the script and style removal subs of the card strategy: an
opening tag with any non-gt attributes, lazily up to the first closing tag,
case insensitive and dot-matches-newline, replaced by nothing. -/
def matchTagRemove (tag : List Char) : List Char → Option (List Char × List Char) :=
  fun s =>
    if startsWithCI ('<' :: tag) s then
      let afterOpen := s.drop (1 + tag.length)
      let run := afterOpen.takeWhile (fun c => c ≠ '>')
      match afterOpen.drop run.length with
      | '>' :: rest =>
        match findCiIdx ('<' :: '/' :: tag ++ ['>']) rest with
        | some i => some ([], rest.drop (i + tag.length + 3))
        | none => none
      | _ => none
    else none

/-- Matcher for one block-level separator of the card strategy split: an
opening angle bracket, one of the block tag names case insensitively, any
non-gt attributes, and the closing bracket; returns the consumed length. -/
def blockTagAt : List Char → Option Nat
  | '<' :: cs =>
    let tags := [lc "div", lc "section", lc "article", lc "li", lc "td", lc "figure"]
    match tags.findSome? (fun t => if startsWithCI t cs then some t.length else none) with
    | some tl =>
      let rest := cs.drop tl
      let run := rest.takeWhile (fun c => c ≠ '>')
      match rest.drop run.length with
      | '>' :: _ => some (1 + tl + run.length + 1)
      | _ => none
    | none => none
  | _ => none

/-- re.split driver over a separator matcher. -/
def splitRxGo (f : List Char → Option Nat) : Nat → List Char → List Char → List (List Char)
  | 0, s, acc => [acc.reverse ++ s]
  | _ + 1, [], acc => [acc.reverse]
  | n + 1, c :: cs, acc =>
    match f (c :: cs) with
    | some len => acc.reverse :: splitRxGo f n ((c :: cs).drop len) []
    | none => splitRxGo f n cs (c :: acc)

/-- re.split with a separator matcher. -/
def splitRx (f : List Char → Option Nat) (s : List Char) : List (List Char) := splitRxGo f s.length s []

/-- Matcher for the tag stripping sub of the card strategy, replacing a whole
tag by one space. -/
def matchTagStrip : List Char → Option (List Char × List Char)
  | '<' :: cs =>
    let run := cs.takeWhile (fun c => c ≠ '>')
    if run.isEmpty then none
    else
      match cs.drop run.length with
      | '>' :: rest => some ([' '], rest)
      | _ => none
  | _ => none

/-- Matcher for the whitespace collapsing sub, replacing a whitespace run by
one space. -/
def matchWsCollapse : List Char → Option (List Char × List Char)
  | [] => none
  | c :: cs =>
    if isSpaceA c then some ([' '], (c :: cs).drop (runLen isSpaceA (c :: cs))) else none

/-- A capitalised word with a bounded lowercase tail, for the card strategy
name pattern. -/
def capWordMax (maxTail : Nat) : List Char → Option (List Char × List Char)
  | [] => none
  | c :: cs =>
    if isUpperA c then
      let tail := cs.takeWhile isLowerA
      if tail.isEmpty || decide (maxTail < tail.length) then none
      else some (c :: tail, cs.drop tail.length)
    else none

/-- The captured group of the card strategy name pattern: a short capitalised
word, an optional middle initial with optional dot, a second capitalised word
and an optional third, with a trailing word boundary.  Alternatives are tried
in the backtracking order of the regex engine. -/
def matchCardName (s : List Char) : Option (List Char × List Char) :=
  match capWordMax 15 s with
  | none => none
  | some (w1, r1) =>
    let ws1 := r1.takeWhile isSpaceA
    let midOpts : List (List Char × List Char) :=
      if ws1.isEmpty then []
      else
        match r1.drop ws1.length with
        | c :: cs2 =>
          if isUpperA c then
            match cs2 with
            | '.' :: cs3 => [(ws1 ++ [c, '.'], cs3), (ws1 ++ [c], cs2)]
            | _ => [(ws1 ++ [c], cs2)]
          else []
        | [] => []
    (midOpts ++ [([], r1)]).findSome? (fun (mid : List Char × List Char) =>
      let ws2 := mid.2.takeWhile isSpaceA
      if ws2.isEmpty then none
      else
        match capWordMax 20 (mid.2.drop ws2.length) with
        | none => none
        | some (w2, r2) =>
          let ws3 := r2.takeWhile isSpaceA
          let third : Option (List Char × List Char) :=
            if ws3.isEmpty then none
            else
              match capWordMax 20 (r2.drop ws3.length) with
              | some (w3, r3) => if boundaryAfter r3 then some (ws3 ++ w3, r3) else none
              | none => none
          match third with
          | some (t3, r3) => some (w1 ++ mid.1 ++ ws2 ++ w2 ++ t3, r3)
          | none => if boundaryAfter r2 then some (w1 ++ mid.1 ++ ws2 ++ w2, r2) else none)

/-- findall for the card name pattern with its leading word boundary. -/
def cardNameFindall : Nat → Option Char → List Char → List (List Char)
  | 0, _, _ => []
  | _ + 1, _, [] => []
  | fuel + 1, prev, c :: cs =>
    let bOk := match prev with | some p => !isWordA p | none => true
    match (if bOk then matchCardName (c :: cs) else none) with
    | some (nm, rest) => nm :: cardNameFindall fuel (some (nm.getLastD ' ')) rest
    | none => cardNameFindall fuel (some c) cs

/-- The lowercase title vocabulary of the card strategy, in source order. -/
def card_title_keywords : List (List Char) :=
  [lc "ceo", lc "cto", lc "cfo", lc "coo", lc "cmo", lc "vp", lc "director", lc "manager",
   lc "head of", lc "lead", lc "engineer", lc "developer", lc "designer", lc "founder",
   lc "president", lc "chief", lc "officer", lc "executive", lc "consultant",
   lc "architect", lc "principal", lc "senior", lc "partner", lc "analyst", lc "coordinator",
   lc "specialist", lc "recruiter", lc "advisor", lc "strategist", lc "associate",
   lc "co-founder", lc "controller", lc "managing"]

/-- The lowercase skip words of the card strategy, checked by containment. -/
def card_skip_words : List (List Char) :=
  [lc "privacy", lc "policy", lc "terms", lc "copyright", lc "contact", lc "about",
   lc "learn", lc "read", lc "more", lc "view", lc "sign", lc "join", lc "follow",
   lc "get", lc "started"]

/-- The lowercase rank first words of the card strategy. -/
def card_title_first : List (List Char) :=
  [lc "chief", lc "vice", lc "senior", lc "junior", lc "lead", lc "principal",
   lc "director", lc "manager", lc "head", lc "general", lc "managing"]

/-- Segment scan of the card title search over the two-space split. -/
def card_title_seg_scan (kw name_lower : List Char) : List (List Char) → Option (List Char)
  | [] => none
  | seg :: rest =>
    let sc := pyStrip seg
    if isSubL kw (lowerL sc) && decide (lowerL sc ≠ name_lower) && decide (sc.length < 150) then
      some sc
    else card_title_seg_scan kw name_lower rest

/-- The stripped window fallback of the card title search: five characters
before to eighty after the first occurrence of the keyword in the lowered
text, stripped, accepted when nonempty and not the name itself. -/
def card_title_fallback (text name_lower kw : List Char) : Option (List Char) :=
  match findIdxL kw (lowerL text) with
  | some idx =>
    let endp := min text.length (idx + 80)
    let cand := pyStrip (pySlice text (idx - 5) endp)
    if !cand.isEmpty && decide (lowerL cand ≠ name_lower) then some cand else none
  | none => none

/-- Embeds the title search of the card strategy: for the first keyword
contained in the block text, accept a matching two-space segment, else the
stripped window around the keyword; when both fail the loop continues. -/
def card_title_kw_loop (text name_lower : List Char) : List (List Char) → Option (List Char)
  | [] => none
  | kw :: kws =>
    if isSubL kw (lowerL text) then
      match card_title_seg_scan kw name_lower (splitSub (lc "  ") text) with
      | some t => some t
      | none =>
        match card_title_fallback text name_lower kw with
        | some t => some t
        | none => card_title_kw_loop text name_lower kws
    else card_title_kw_loop text name_lower kws

/-- Take an exact count of digits. -/
def takeDigits (n : Nat) (s : List Char) : Option (List Char × List Char) :=
  let d := s.take n
  if d.length = n && d.all isDigitA then some (d, s.drop n) else none

/-- The optional separator class after the area code of the phone pattern. -/
def isPhoneSep1 (c : Char) : Bool := c = ')' || c = '.' || c = '-' || isSpaceA c

/-- The required separator class of the phone pattern. -/
def isPhoneSep2 (c : Char) : Bool := c = '-' || c = '.' || isSpaceA c

/-- Try the phone pattern at one position: optional opening parenthesis, three
digits, an optional separator, whitespace, three digits, a separator, four
digits.  The optional separator backtracks once as the engine does. -/
def phone_at (s : List Char) : Option (List Char) :=
  let (p1, r1) := match s with | '(' :: cs => ([ '(' ], cs) | _ => (([] : List Char), s)
  match takeDigits 3 r1 with
  | none => none
  | some (d1, r2) =>
    let tailFrom : List Char → List Char → Option (List Char) := fun c1 r3 =>
      let ws := r3.takeWhile isSpaceA
      let r4 := r3.drop ws.length
      match takeDigits 3 r4 with
      | none => none
      | some (d2, r5) =>
        match r5 with
        | c :: cs =>
          if isPhoneSep2 c then
            match takeDigits 4 cs with
            | some (d3, _) => some (p1 ++ d1 ++ c1 ++ ws ++ d2 ++ c :: d3)
            | none => none
          else none
        | [] => none
    let withSep : Option (List Char) :=
      match r2 with
      | c :: cs => if isPhoneSep1 c then tailFrom [c] cs else none
      | [] => none
    match withSep with
    | some m => some m
    | none => tailFrom [] r2

/-- re.search for the phone pattern: leftmost match. -/
def phone_search : List Char → Option (List Char)
  | [] => none
  | c :: cs =>
    match phone_at (c :: cs) with
    | some m => some m
    | none => phone_search cs

/-- The linkedin url class of the card strategy. -/
def isCardLiC (c : Char) : Bool :=
  !(isSpaceA c || c = '"' || c = '\x27' || c = '<' || c = '>')

/-- The detectors and acceptance gate of the card strategy for one name:
title, email, linkedin and phone scoped to the block, accepting when any
secondary signal is present. -/
def card_candidate (block text source_url name : List Char) : Option Prospect :=
  let title := card_title_kw_loop text (lowerL name) card_title_keywords
  let email := pick_email (pyEmailFindall text)
  let linkedin_url := (li_url_search false (lc "linkedin.com/in/") isCardLiC block).map rstripSlash
  let phone := phone_search text
  if title.isSome || email.isSome || linkedin_url.isSome || phone.isSome then
    some { name := name, title := optJ title, company := Json.null, email := optJ email,
           phone := some (optJ phone), linkedin_url := optJ linkedin_url,
           source := source_url, confidence := 0 }
  else none

/-- The per-name inner loop of the card strategy: shape and deny filters, the
shared seen-name set, then the detectors and gate of card_candidate. -/
def card_process_names (block text source_url : List Char) :
    List (List Char) → List (List Char) → List Prospect →
      Except PyErr (List (List Char) × List Prospect)
  | [], seen, acc => .ok (seen, acc)
  | nm0 :: rest, seen, acc =>
    if decide ((splitWs (pyStrip nm0)).length < 2) then
      card_process_names block text source_url rest seen acc
    else if memS (lowerL (pyStrip nm0)) seen then
      card_process_names block text source_url rest seen acc
    else if card_skip_words.any (fun w => isSubL w (lowerL (pyStrip nm0))) then
      card_process_names block text source_url rest seen acc
    else if card_title_first.any (fun w => w = lowerL ((splitWs (pyStrip nm0)).headD [])) then
      card_process_names block text source_url rest seen acc
    else
      match card_candidate block text source_url (pyStrip nm0) with
      | none => card_process_names block text source_url rest seen acc
      | some p0 =>
        match calculate_extraction_confidence p0 with
        | .error e => .error e
        | .ok n =>
          card_process_names block text source_url rest (lowerL (pyStrip nm0) :: seen)
            (acc ++ [{ p0 with confidence := n }])

/-- The text of one card block: tags stripped to spaces, whitespace collapsed,
then stripped. -/
def card_text (block : List Char) : List Char :=
  pyStrip (pySub matchWsCollapse (pySub matchTagStrip block))

/-- The block loop of the card strategy with its length bands. -/
def card_blocks_loop (source_url : List Char) :
    List (List Char) → List (List Char) → List Prospect → Except PyErr (List Prospect)
  | [], _, acc => .ok acc
  | block :: rest, seen, acc =>
    if decide (2000 < block.length) || decide (block.length < 10) then
      card_blocks_loop source_url rest seen acc
    else if decide ((card_text block).length < 5) || decide (500 < (card_text block).length) then
      card_blocks_loop source_url rest seen acc
    else
      match card_process_names block (card_text block) source_url
          (cardNameFindall (card_text block).length none (card_text block)) seen acc with
      | .error e => .error e
      | .ok (seen2, acc2) => card_blocks_loop source_url rest seen2 acc2

/-- Embeds _extract_from_html_cards (src/backend.py): remove scripts and
styles, split on block-level tags, and extract a candidate per card when a
name and a secondary signal are present. -/
def _extract_from_html_cards (html_content source_url : List Char) : Except PyErr (List Prospect) :=
  if html_content.isEmpty then .ok []
  else
    let clean_html :=
      pySub (matchTagRemove (lc "style")) (pySub (matchTagRemove (lc "script")) html_content)
    let text_blocks := splitRx blockTagAt clean_html
    card_blocks_loop source_url text_blocks [] []

/-- Greedy trailing whitespace before the multiline dollar of the heading
pattern: the largest prefix of the whitespace run after which the position is
an end of line. -/
def dollarK : Nat → List Char → Option Nat
  | 0, rest => if rest.isEmpty || rest.headD ' ' = '\n' then some 0 else none
  | k + 1, rest =>
    let r2 := rest.drop (k + 1)
    if r2.isEmpty || r2.headD ' ' = '\n' then some (k + 1) else dollarK k rest

/-- Try the heading pattern at a line start: two to four hash marks, forced
whitespace, the two-or-three word capitalised name, trailing whitespace and
the line end.  Returns the captured name and the total match length. -/
def matchHeadingAt (s : List Char) : Option (List Char × Nat) :=
  let hr := runLen (fun c => c = '#') s
  if decide (hr < 2) || decide (4 < hr) then none
  else
    let s1 := s.drop hr
    let w := runLen isSpaceA s1
    if w = 0 then none
    else
      match capWord (s1.drop w) with
      | none => none
      | some (w1, r1) =>
        match r1 with
        | ' ' :: r1b =>
          match capWord r1b with
          | none => none
          | some (w2, r2) =>
            let tryThird : Option (List Char × Nat) :=
              match r2 with
              | ' ' :: r2b =>
                match capWord r2b with
                | some (w3, r3) =>
                  match dollarK (runLen isSpaceA r3) r3 with
                  | some k => some (w1 ++ ' ' :: w2 ++ ' ' :: w3,
                      hr + w + w1.length + w2.length + w3.length + 2 + k)
                  | none => none
                | none => none
              | _ => none
            match tryThird with
            | some res => some res
            | none =>
              match dollarK (runLen isSpaceA r2) r2 with
              | some k => some (w1 ++ ' ' :: w2, hr + w + w1.length + w2.length + 1 + k)
              | none => none
        | _ => none

/-- finditer for the multiline heading pattern, returning each match end
position with its captured name. -/
def finditerHeadings : Nat → Nat → Bool → List Char → List (Nat × List Char)
  | 0, _, _, _ => []
  | _ + 1, _, _, [] => []
  | fuel + 1, pos, atLS, c :: cs =>
    match (if atLS then matchHeadingAt (c :: cs) else none) with
    | some (nm, len) =>
      (pos + len, nm) ::
        finditerHeadings fuel (pos + len) (((c :: cs).take len).getLastD ' ' = '\n')
          ((c :: cs).drop len)
    | none => finditerHeadings fuel (pos + 1) (c = '\n') cs

/-- The lowercase title vocabulary of the heading strategy, in source order. -/
def heading_title_keywords : List (List Char) :=
  [lc "ceo", lc "cto", lc "cfo", lc "coo", lc "cmo", lc "vp", lc "director", lc "manager",
   lc "head of", lc "lead", lc "founder", lc "president", lc "chief", lc "officer",
   lc "partner", lc "executive", lc "principal", lc "senior", lc "associate",
   lc "co-founder", lc "analyst"]

/-- Embeds the title line search of the heading strategy: skip empty or hash
lines, accept the first line containing a keyword under 150 characters.  The
anchor name is not excluded here. -/
def heading_title_lines : List (List Char) → Option (List Char)
  | [] => none
  | line :: rest =>
    let ls := pyStrip line
    if ls.isEmpty || startsWithL (lc "#") ls then heading_title_lines rest
    else
      match heading_title_keywords.findSome?
          (fun kw => if isSubL kw (lowerL ls) && decide (ls.length < 150) then some ls else none) with
      | some t => some t
      | none => heading_title_lines rest

/-- The linkedin url class of the heading strategy. -/
def isHeadLiC (c : Char) : Bool := !(isSpaceA c || c = ')')

/-- The detectors and acceptance gate of the heading strategy for one
heading: a 400 character context searched for a title line, the first email
and a linkedin url. -/
def heading_candidate (content source_url : List Char) (endPos : Nat) (name : List Char) :
    Option Prospect :=
  let context := pySlice content endPos (endPos + 400)
  let title := heading_title_lines ((splitNl context).take 6)
  let email := (pyEmailFindall context).head?
  let linkedin_url := li_url_search false (lc "linkedin.com/in/") isHeadLiC context
  if title.isSome || email.isSome || linkedin_url.isSome then
    some { name := name, title := optJ title, company := Json.null, email := optJ email,
           phone := none, linkedin_url := optJ linkedin_url, source := source_url,
           confidence := 0 }
  else none

/-- The per-heading loop of the heading strategy with its seen-name set. -/
def heading_loop (content source_url : List Char) :
    List (Nat × List Char) → List (List Char) → List Prospect → Except PyErr (List Prospect)
  | [], _, acc => .ok acc
  | (endPos, nm0) :: rest, seen, acc =>
    if memS (lowerL (pyStrip nm0)) seen || decide ((splitWs (pyStrip nm0)).length < 2) then
      heading_loop content source_url rest seen acc
    else
      match heading_candidate content source_url endPos (pyStrip nm0) with
      | none => heading_loop content source_url rest seen acc
      | some p0 =>
        match calculate_extraction_confidence p0 with
        | .error e => .error e
        | .ok n =>
          heading_loop content source_url rest (lowerL (pyStrip nm0) :: seen)
            (acc ++ [{ p0 with confidence := n }])

/-- Embeds _extract_from_headings (src/backend.py): markdown headings whose
text is a capitalised name, with a 400 character context for secondary
signals. -/
def _extract_from_headings (content source_url : List Char) : Except PyErr (List Prospect) :=
  if content.isEmpty then .ok []
  else heading_loop content source_url (finditerHeadings content.length 0 true content) [] []

/-- Does the attribute run contain the ld-json type marker: the type literal,
one quote character, the mime literal case insensitively, and one quote. -/
def ldTypeAt (s : List Char) : Bool :=
  if startsWithCI (lc "type=") s then
    match s.drop 5 with
    | q :: r2 =>
      (q = '"' || q = '\x27') && startsWithCI (lc "application/ld+json") r2 &&
        (match r2.drop 19 with
         | q2 :: _ => q2 = '"' || q2 = '\x27'
         | [] => false)
    | [] => false
  else false

/-- Scan the attribute run for the ld-json type marker. -/
def ldTypeInAttrs : List Char → Bool
  | [] => false
  | c :: cs => ldTypeAt (c :: cs) || ldTypeInAttrs cs

/-- Match one ld-json script block at this position: the script open tag whose
attributes contain the ld-json type, then the lazy body up to the first close
tag.  Returns the captured body and the remainder. -/
def ldScriptAt (s : List Char) : Option (List Char × List Char) :=
  if startsWithCI (lc "<script") s then
    let afterOpen := s.drop 7
    let attrs := afterOpen.takeWhile (fun c => c ≠ '>')
    match afterOpen.drop attrs.length with
    | '>' :: rest =>
      if ldTypeInAttrs attrs then
        match findCiIdx (lc "</script>") rest with
        | some i => some (rest.take i, rest.drop (i + 9))
        | none => none
      else none
    | _ => none
  else none

/-- findall of the ld-json block pattern over a whole page. -/
def ldBlocksGo : Nat → List Char → List (List Char)
  | 0, _ => []
  | _ + 1, [] => []
  | fuel + 1, c :: cs =>
    match ldScriptAt (c :: cs) with
    | some (g, rest) => g :: ldBlocksGo fuel rest
    | none => ldBlocksGo fuel cs

/-- All ld-json script bodies of a page in order. -/
def findLdBlocks (html : List Char) : List (List Char) := ldBlocksGo html.length html

/-- Keys of a dict value as the strings Python iteration yields. -/
def objKeysJ : Json → List Json
  | .objCons k _ r => Json.str k :: objKeysJ r
  | _ => []

/-- Process one Person entity of the JSON-LD strategy: reject names with under
two tokens, map jobTitle, email, worksFor and the first linkedin sameAs entry,
then score.  A truthy non-string name reaches a split call in Python and
raises AttributeError; iterating a truthy non-iterable sameAs raises
TypeError. -/
def jsonldPersonFields (person : Json) (source_url : List Char) : Except PyErr (Option Prospect) :=
  let jname := jGetD person (lc "name") (Json.str [])
  if !pyTruthy jname then .ok none
  else
    match jname with
    | .str nm =>
      if decide ((splitWs nm).length < 2) then .ok none
      else
        let titleJ := jGetD person (lc "jobTitle") Json.null
        let emailJ := jGetD person (lc "email") Json.null
        let org := jGetD person (lc "worksFor") Json.null
        let companyJ :=
          if jIsDict org then jGetD org (lc "name") Json.null
          else match org with | .str s => Json.str s | _ => Json.null
        let sameAsJ := jGetD person (lc "sameAs") Json.null
        let linksE : Except PyErr (List Json) :=
          if pyTruthy sameAsJ then
            match sameAsJ with
            | .arrCons x xs => .ok (jElems (Json.arrCons x xs))
            | .str sa => .ok (sa.map (fun ch => Json.str [ch]))
            | .objCons k v r => .ok (objKeysJ (Json.objCons k v r))
            | _ => .error .typeError
          else .ok []
        match linksE with
        | .error e => .error e
        | .ok links =>
          let linkedinJ :=
            (links.findSome? (fun l =>
              if isSubL (lc "linkedin.com") (pyStr l) then some l else none)).getD Json.null
          let p0 : Prospect :=
            { name := nm, title := titleJ, company := companyJ, email := emailJ,
              phone := none, linkedin_url := linkedinJ, source := source_url, confidence := 0 }
          match calculate_extraction_confidence p0 with
          | .error e => .error e
          | .ok conf => .ok (some { p0 with confidence := conf })
    | _ => .error .attributeError

/-- The graph comprehension of the JSON-LD strategy: keep Person entries; a
non-dict entry reaches a get call and raises AttributeError. -/
def jsonldGraphFilter : List Json → Except PyErr (List Json)
  | [] => .ok []
  | g :: rest =>
    if jIsDict g then
      match jsonldGraphFilter rest with
      | .error e => .error e
      | .ok tl =>
        .ok (if pyEqJ (jGetD g (lc "@type") Json.null) (Json.str (lc "Person")) then g :: tl else tl)
    else .error .attributeError

/-- The person loop of one JSON-LD item; already-appended prospects survive a
later exception in the same block. -/
def jsonldPersonsLoop (source_url : List Char) :
    List Json → List Prospect → List Prospect × Option PyErr
  | [], acc => (acc, none)
  | person :: ps, acc =>
    match jsonldPersonFields person source_url with
    | .error e => (acc, some e)
    | .ok none => jsonldPersonsLoop source_url ps acc
    | .ok (some p) => jsonldPersonsLoop source_url ps (acc ++ [p])

/-- The item loop of one JSON-LD block: a non-dict item reaches a get call and
raises AttributeError; a dict item contributes its own Person or its graph
members. -/
def jsonldItemsLoop (source_url : List Char) :
    List Json → List Prospect → List Prospect × Option PyErr
  | [], acc => (acc, none)
  | item :: rest, acc =>
    if !jIsDict item then (acc, some .attributeError)
    else
      let isPerson := pyEqJ (jGetD item (lc "@type") Json.null) (Json.str (lc "Person"))
      let graphIsList := jIsList (jGetD item (lc "@graph") Json.null)
      if isPerson || graphIsList then
        let personsE : Except PyErr (List Json) :=
          if isPerson then .ok [item]
          else jsonldGraphFilter (jElems (jGetD item (lc "@graph") Json.arrNil))
        match personsE with
        | .error e => (acc, some e)
        | .ok persons =>
          match jsonldPersonsLoop source_url persons acc with
          | (acc2, some e) => (acc2, some e)
          | (acc2, none) => jsonldItemsLoop source_url rest acc2
      else jsonldItemsLoop source_url rest acc

/-- Process one decoded JSON-LD block: a list is iterated item-wise, any other
value is wrapped as a single item. -/
def jsonldProcessBlock (data : Json) (source_url : List Char) (acc : List Prospect) :
    List Prospect × Option PyErr :=
  jsonldItemsLoop source_url (if jIsList data then jElems data else [data]) acc

/-- The block loop of the JSON-LD strategy with its per-block try guard: a
decode ValueError is caught and the block skipped, as are KeyError and
TypeError from processing; any other exception propagates to the caller. -/
def jsonldBlocksLoop (source_url : List Char) :
    List (List Char) → List Prospect → Except PyErr (List Prospect)
  | [], acc => .ok acc
  | block :: rest, acc =>
    match json_loads block with
    | none => jsonldBlocksLoop source_url rest acc
    | some data =>
      match jsonldProcessBlock data source_url acc with
      | (acc2, none) => jsonldBlocksLoop source_url rest acc2
      | (acc2, some e) =>
        if caughtByJsonldExcept e then jsonldBlocksLoop source_url rest acc2
        else .error e

/-- Embeds _extract_from_jsonld (src/backend.py): decode each ld-json script
block and extract Person entities. -/
def _extract_from_jsonld (html_content source_url : List Char) : Except PyErr (List Prospect) :=
  if html_content.isEmpty then .ok []
  else jsonldBlocksLoop source_url (findLdBlocks html_content) []

/-- The truthiness of the optional html argument. -/
def htmlTruthy : Option (List Char) → Bool
  | some h => !h.isEmpty
  | none => false

/-- One escalation step of the orchestrator: run a fallback strategy and keep
its result only when strictly larger than the current one. -/
def keep_larger (cur : List Prospect) (alt : Except PyErr (List Prospect)) :
    Except PyErr (List Prospect) :=
  match alt with
  | .error e => .error e
  | .ok np => .ok (if decide (cur.length < np.length) then np else cur)

/-- Embeds extract_prospects_from_content (src/backend.py): run the regex
strategy, then while the result stays under two candidates escalate to the
card strategy, the JSON-LD strategy (both needing truthy html) and the
heading strategy, each time keeping the new result only when strictly
larger. -/
def extract_prospects_from_content (content source_url : List Char)
    (html_content : Option (List Char)) : Except PyErr (List Prospect) :=
  match _extract_regex content source_url with
  | .error e => .error e
  | .ok prospects =>
    match (if decide (prospects.length < 2) && htmlTruthy html_content then
        keep_larger prospects (_extract_from_html_cards (html_content.getD []) source_url)
      else .ok prospects) with
    | .error e => .error e
    | .ok p2 =>
      match (if decide (p2.length < 2) && htmlTruthy html_content then
          keep_larger p2 (_extract_from_jsonld (html_content.getD []) source_url)
        else .ok p2) with
      | .error e => .error e
      | .ok p3 =>
        if decide (p3.length < 2) then
          keep_larger p3 (_extract_from_headings content source_url)
        else .ok p3

/-- The identity key of a candidate for cross-page deduplication: the email
when truthy, else the f-string of name, underscore, and the str of the
company value. -/
def crossKey (p : Prospect) : Json :=
  if pyTruthy p.email then p.email else Json.str (p.name ++ '_' :: pyStr p.company)

/-- The keep-first loop of the cross-page pass.  The Python seen set is
modelled as a list tested by Python equality. -/
def cross_dedup_go : List Prospect → List Json → List Prospect → List Prospect
  | [], _, acc => acc
  | p :: rest, seen, acc =>
    let key := crossKey p
    if pyTruthy key && !(pyInJ key seen) then cross_dedup_go rest (key :: seen) (acc ++ [p])
    else cross_dedup_go rest seen acc

/-- Embeds the final cross-page deduplication loop of search_prospects
(src/backend.py): keep the first candidate observed per identity key. -/
def cross_page_dedup (prospects : List Prospect) : List Prospect :=
  cross_dedup_go prospects [] []

/-- Source url used by the concrete evaluations. -/
def srcU : List Char := lc "u"

/-- The markdown example of the specification. -/
def mdJane : List Char := lc "Jane Doe\nVP of Engineering\nAcme Corp\njane@acme.com"

/-- A 15 character markdown heading with an email. -/
def mdShortHeading : List Char := lc "## Ab Cd\na@b.co"

/-- A heading name repeated as its own context line. -/
def mdLeadSmith : List Char := lc "## Lead Smith\nLead Smith"

/-- Twenty five lowercase characters: long enough for the regex strategy but
containing no names. -/
def mdNoNames : List Char := lc "zzzzzzzzzzzzzzzzzzzzzzzzz"

/-- An ld-json block whose decoded value is a bare string. -/
def htmlBadBlock : List Char := lc "<script type=\"application/ld+json\">\"x\"</script>"

/-- Two ld-json Person blocks with the same name. -/
def htmlDupPersons : List Char :=
  lc "<script type=\"application/ld+json\">\x7b\"@type\":\"Person\",\"name\":\"Ab Cd\"\x7d</script><script type=\"application/ld+json\">\x7b\"@type\":\"Person\",\"name\":\"Ab Cd\"\x7d</script>"

/-- One ld-json Person block carrying only a name. -/
def htmlBarePerson : List Char :=
  lc "<script type=\"application/ld+json\">\x7b\"@type\":\"Person\",\"name\":\"Uv Wx\"\x7d</script>"

/-- Two team cards plus an ld-json block with three Person entities. -/
def htmlCardsGraph : List Char :=
  lc "<div>Ab Cd, CEO x@y.co</div><div>Ef Gh, CTO q@r.co</div><script type=\"application/ld+json\">[\x7b\"@type\":\"Person\",\"name\":\"Ij Kl\"\x7d,\x7b\"@type\":\"Person\",\"name\":\"Mn Op\"\x7d,\x7b\"@type\":\"Person\",\"name\":\"Qr St\"\x7d]</script>"

/-- First candidate the code extracts from the Jane Doe markdown. -/
def janeP1 : Prospect :=
  { name := lc "Jane Doe", title := Json.str (lc "VP of Engineering"), company := Json.null,
    email := Json.null, phone := none, linkedin_url := Json.null, source := srcU,
    confidence := 55 }

/-- Second candidate the code extracts from the Jane Doe markdown: the company
line is taken for a person and the window capture becomes its company. -/
def janeP2 : Prospect :=
  { name := lc "Acme Corp", title := Json.null,
    company := Json.str (lc "Jane Doe\nVP of Engineering\nAcme Corp"),
    email := Json.str (lc "jane@acme.com"), phone := none, linkedin_url := Json.null,
    source := srcU, confidence := 65 }

/-- The heading candidate of the short markdown input. -/
def abCdHeadingP : Prospect :=
  { name := lc "Ab Cd", title := Json.null, company := Json.null,
    email := Json.str (lc "a@b.co"), phone := none, linkedin_url := Json.null,
    source := srcU, confidence := 45 }

/-- The heading candidate whose title equals its name. -/
def leadSmithP : Prospect :=
  { name := lc "Lead Smith", title := Json.str (lc "Lead Smith"), company := Json.null,
    email := Json.null, phone := none, linkedin_url := Json.null, source := srcU,
    confidence := 55 }

/-- The bare-name candidate of the duplicate Person blocks. -/
def dupPersonP : Prospect :=
  { name := lc "Ab Cd", title := Json.null, company := Json.null, email := Json.null,
    phone := none, linkedin_url := Json.null, source := srcU, confidence := 30 }

/-- The bare-name candidate of the single Person block. -/
def barePersonP : Prospect :=
  { name := lc "Uv Wx", title := Json.null, company := Json.null, email := Json.null,
    phone := none, linkedin_url := Json.null, source := srcU, confidence := 30 }

/-- The seen-name key of a candidate in the intra-page deduplicator. -/
def nameKeyOf (p : Prospect) : List Char := pyStrip (lowerL p.name)

/-- The seen-title key of a stored title value, as a total function. -/
def titleKeyOfJ : Json → List Char
  | .str s => pyStrip (lowerL s)
  | _ => []

/-- The seen-title key of a candidate. -/
def titleKeyOf (p : Prospect) : List Char := titleKeyOfJ p.title

/-- Per-candidate facts established by the anchor processing of the regex
strategy: no phone key, the title-or-company gate, no self title, and a
lowerable stored title. -/
def goodRegexP (p : Prospect) : Prop :=
  p.phone = none ∧ (p.title ≠ Json.null ∨ p.company ≠ Json.null) ∧
    p.title ≠ Json.str p.name ∧ title_lower_of p.title = .ok (titleKeyOf p)

/-- Per-candidate facts established by the card strategy: a secondary signal
is present, the title never equals the name, and the phone key exists. -/
def goodCardP (p : Prospect) : Prop :=
  (p.title ≠ Json.null ∨ p.email ≠ Json.null ∨ p.linkedin_url ≠ Json.null ∨
    p.phone ≠ some Json.null) ∧ p.title ≠ Json.str p.name ∧ p.phone.isSome = true

/-- Per-candidate facts established by the heading strategy: a secondary
signal is present and there is no phone key. -/
def goodHeadP (p : Prospect) : Prop :=
  (p.title ≠ Json.null ∨ p.email ≠ Json.null ∨ p.linkedin_url ≠ Json.null) ∧ p.phone = none

/-- C1 counterexample: the 15 character trimmed input with a markdown heading
and an email yields one candidate from the heading fallback, so the full
extractor does not return an empty list for every input under 20 trimmed
characters. -/
theorem c1_counterexample :
    (pyStrip mdShortHeading).length < 20 ∧
      extract_prospects_from_content mdShortHeading srcU none = .ok [abCdHeadingP] :=
  ⟨by decide, rfl⟩

/-- C5 counterexample: on the Jane Doe markdown example the code returns two
candidates, not exactly one. -/
theorem c5_counterexample :
    (extract_prospects_from_content mdJane srcU none).map List.length = .ok 2 := rfl

/-- C5 amended: on the Jane Doe markdown the code returns the Jane Doe
candidate with title VP of Engineering but no company, no email and
confidence 55, followed by an Acme Corp candidate misrecognised as a person,
whose company field is the whole three line window capture, with the email
and confidence 65. -/
theorem c5_jane_two_candidates :
    extract_prospects_from_content mdJane srcU none = .ok [janeP1, janeP2] := rfl

/-- C6: the JSON-LD except clause catches ValueError, KeyError and TypeError
only, so a block whose decoded value is a bare string reaches a get call on a
non-dict and the resulting AttributeError propagates out of the extractor. -/
theorem c6_uncaught_attribute_error :
    extract_prospects_from_content mdNoNames srcU (some htmlBadBlock) = .error .attributeError ∧
      caughtByJsonldExcept .attributeError = false :=
  ⟨rfl, rfl⟩

/-- C2 counterexample: two identical Person blocks make the structured-data
strategy return, and the orchestrator keep, two candidates with the same
lowercased name. -/
theorem c2_counterexample :
    extract_prospects_from_content mdNoNames srcU (some htmlDupPersons) =
        .ok [dupPersonP, dupPersonP] ∧
      ¬ ([dupPersonP, dupPersonP].Pairwise (fun p q => lowerL p.name ≠ lowerL q.name)) :=
  ⟨rfl, fun h => (List.pairwise_cons.mp h).1 dupPersonP (List.mem_singleton.mpr rfl) rfl⟩

/-- C3 counterexample: a Person block carrying only a name makes the final
output contain a candidate with no title, company, email, linkedin or phone. -/
theorem c3_counterexample :
    extract_prospects_from_content mdNoNames srcU (some htmlBarePerson) = .ok [barePersonP] ∧
      barePersonP.title = Json.null ∧ barePersonP.company = Json.null ∧
      barePersonP.email = Json.null ∧ barePersonP.linkedin_url = Json.null ∧
      barePersonP.phone = none :=
  ⟨rfl, rfl, rfl, rfl, rfl, rfl⟩

/-- C4 counterexample: with two cards and a three Person graph, the card
strategy result reaches the threshold, the structured-data strategy is never
run, and the final list has two candidates although the structured-data run
would have produced three; the larger of the two is not kept. -/
theorem c4_counterexample :
    (extract_prospects_from_content mdNoNames srcU (some htmlCardsGraph)).map List.length =
        .ok 2 ∧
      (_extract_from_jsonld htmlCardsGraph srcU).map List.length = .ok 3 :=
  ⟨rfl, rfl⟩

/-- C7 counterexample: a heading name repeated as a context line containing a
title keyword is returned with its title equal to its name. -/
theorem c7_counterexample :
    extract_prospects_from_content mdLeadSmith srcU none = .ok [leadSmithP] ∧
      leadSmithP.title = Json.str leadSmithP.name :=
  ⟨rfl, rfl⟩

/-- C9 counterexample: a candidate built by the regex strategy has no phone
field at all, so not every candidate record contains all eight fields. -/
theorem c9_counterexample :
    _extract_regex mdJane srcU = .ok [janeP1, janeP2] ∧ janeP1.phone = none :=
  ⟨rfl, rfl⟩

lemma memS_iff {x : List Char} : ∀ {l : List (List Char)}, memS x l = true ↔ x ∈ l := by
  intro l
  induction l with
  | nil => simp [memS]
  | cons y ys ih => simp [memS, ih]

lemma title_lower_of_ok {t : Json} {s : List Char} (h : title_lower_of t = .ok s) :
    s = titleKeyOfJ t := by
  cases t with
  | str z =>
    by_cases hz : z.isEmpty
    · rw [List.isEmpty_iff] at hz
      subst hz
      simp [title_lower_of, pyTruthy] at h
      simp [titleKeyOfJ, lowerL, pyStrip, dropWs, ← h]
    · simp [title_lower_of, pyTruthy, hz] at h
      simp [titleKeyOfJ, ← h]
  | null => simp_all [title_lower_of, pyTruthy, titleKeyOfJ]
  | bool b =>
    cases b <;> simp_all [title_lower_of, pyTruthy, titleKeyOfJ]
  | num n =>
    by_cases hn : n = 0 <;> simp_all [title_lower_of, pyTruthy, titleKeyOfJ]
  | arrNil => simp_all [title_lower_of, pyTruthy, titleKeyOfJ]
  | arrCons a b => simp_all [title_lower_of, pyTruthy, titleKeyOfJ]
  | objNil => simp_all [title_lower_of, pyTruthy, titleKeyOfJ]
  | objCons k v r => simp_all [title_lower_of, pyTruthy, titleKeyOfJ]

lemma title_lower_of_optJ (o : Option (List Char)) :
    title_lower_of (optJ o) = .ok (titleKeyOfJ (optJ o)) := by
  cases o with
  | none => simp [optJ, title_lower_of, pyTruthy, titleKeyOfJ]
  | some z =>
    by_cases hz : z.isEmpty
    · rw [List.isEmpty_iff] at hz
      subst hz
      simp [optJ, title_lower_of, pyTruthy, titleKeyOfJ, lowerL, pyStrip, dropWs]
    · simp [optJ, title_lower_of, pyTruthy, hz, titleKeyOfJ]

lemma title_kw_scan_eq {ls t : List Char} :
    ∀ {kws : List (List Char)}, title_kw_scan ls kws = some t → t = ls := by
  intro kws
  induction kws with
  | nil => simp [title_kw_scan]
  | cons kw kws ih =>
    intro h
    rw [title_kw_scan] at h
    split at h
    · split at h
      · exact (Option.some_inj.mp h).symm
      · exact ih h
    · exact ih h

lemma find_title_ne_name {name t : List Char} :
    ∀ {lines : List (List Char)}, find_title_lines name lines = some t → t ≠ name := by
  intro lines
  induction lines with
  | nil => simp [find_title_lines]
  | cons line rest ih =>
    intro h
    rw [find_title_lines] at h
    split at h
    · exact ih h
    · split at h
      · exact ih h
      · rename_i hskip _
        split at h
        · rename_i t2 hscan
          cases h
          have := title_kw_scan_eq hscan
          subst this
          simp only [Bool.or_eq_true, decide_eq_true_eq] at hskip
          intro hEq
          exact hskip (Or.inr hEq)
        · exact ih h

lemma regex_candidate_good {c u : List Char} {n pos : Nat} {name : List Char}
    {next : Option Nat} {p : Prospect}
    (h : regex_candidate c u n pos name next = .ok (some p)) : goodRegexP p := by
  rw [regex_candidate.eq_def] at h
  dsimp only at h
  split at h
  · rename_i hgate
    split at h
    · rename_i conf hconf
      cases h
      generalize hT : find_title_lines name _ = tOpt at hgate
      generalize hC : company_loop _ company_keywords none = cOpt at hgate
      simp only [Bool.and_eq_true, Bool.or_eq_true] at hgate
      refine ⟨rfl, ?_, ?_, ?_⟩
      · rcases hgate.1 with ht | hc
        · cases tOpt with
          | none => simp at ht
          | some tt => left; simp [hT, optJ]
        · cases cOpt with
          | none => simp at hc
          | some cc => right; simp [hC, optJ]
      · cases tOpt with
        | none => simp [hT, optJ]
        | some tt =>
          simp only [hT, optJ]
          intro hEq
          exact find_title_ne_name hT (Json.str.inj hEq)
      · simp only [hT]
        exact title_lower_of_optJ _
    · exact absurd h (by simp)
  · exact absurd h (by simp)

lemma regex_candidates_loop_good {c u : List Char} {n : Nat} :
    ∀ {persons : List (Nat × List Char)} {raw : List Prospect},
      regex_candidates_loop c u n persons = .ok raw → ∀ p ∈ raw, goodRegexP p := by
  intro persons
  induction persons with
  | nil =>
    intro raw h
    rw [regex_candidates_loop] at h
    cases h
    simp
  | cons pr rest ih =>
    obtain ⟨pos, nm⟩ := pr
    intro raw h
    rw [regex_candidates_loop] at h
    split at h
    · exact absurd h (by simp)
    · exact ih h
    · rename_i p2 hcand
      split at h
      · exact absurd h (by simp)
      · rename_i ps hrec
        cases h
        intro q hq
        rcases List.mem_cons.mp hq with hq | hq
        · subst hq
          exact regex_candidate_good hcand
        · exact ih hrec q hq

lemma lookupT_cons (k : List Char) (i : Nat) (rest : List (List Char × Nat)) (t : List Char) :
    lookupT ((k, i) :: rest) t = if k = t then some i else lookupT rest t := rfl

lemma nodup_set_of_not_mem {α : Type} :
    ∀ {L : List α} {i : Nat} {b : α}, L.Nodup → b ∉ L → (L.set i b).Nodup := by
  intro L
  induction L with
  | nil => intro i b _ _; simp
  | cons hd tl ih =>
    intro i b hnd hb
    cases i with
    | zero =>
      simp only [List.set]
      rw [List.nodup_cons] at hnd ⊢
      exact ⟨fun hc => hb (List.mem_cons_of_mem _ hc), hnd.2⟩
    | succ n =>
      simp only [List.set]
      rw [List.nodup_cons] at hnd ⊢
      refine ⟨fun hc => ?_, ih hnd.2 (fun hc => hb (List.mem_cons_of_mem _ hc))⟩
      rcases List.mem_or_eq_of_mem_set hc with hc | hc
      · exact hnd.1 hc
      · subst hc; exact hb (List.mem_cons_self _ _)

lemma mem_set_nodup {α : Type} :
    ∀ {L : List α} {i : Nat} {a b x : α}, L.Nodup → L.get? i = some a →
      (x ∈ L.set i b ↔ x = b ∨ (x ∈ L ∧ x ≠ a)) := by
  intro L
  induction L with
  | nil => intro i a b x _ h; simp [List.get?] at h
  | cons hd tl ih =>
    intro i a b x hnd hget
    rw [List.nodup_cons] at hnd
    cases i with
    | zero =>
      simp only [List.get?] at hget
      cases hget
      simp only [List.set, List.mem_cons]
      constructor
      · rintro (h | h)
        · exact Or.inl h
        · exact Or.inr ⟨Or.inr h, fun hx => hnd.1 (hx ▸ h)⟩
      · rintro (h | ⟨h | h, hne⟩)
        · exact Or.inl h
        · exact absurd h hne
        · exact Or.inr h
    | succ n =>
      simp only [List.get?] at hget
      have hmem : a ∈ tl := List.get?_mem hget
      simp only [List.set, List.mem_cons]
      rw [ih hnd.2 hget]
      constructor
      · rintro (h | h | ⟨h, hne⟩)
        · subst h
          exact Or.inr ⟨Or.inl rfl, fun hx => hnd.1 (by rw [hx]; exact hmem)⟩
        · exact Or.inl h
        · exact Or.inr ⟨Or.inr h, hne⟩
      · rintro (h | ⟨h | h, hne⟩)
        · exact Or.inr (Or.inl h)
        · exact Or.inl h
        · exact Or.inr (Or.inr ⟨h, hne⟩)

lemma dedup_go_sound :
    ∀ (l final : List Prospect) (seenN : List (List Char)) (seenT : List (List Char × Nat))
      (out : List Prospect),
      regex_dedup_go l final seenN seenT = .ok out →
      (final.map nameKeyOf).Nodup →
      (∀ s, memS s seenN = true ↔ s ∈ final.map nameKeyOf) →
      (∀ t i, lookupT seenT t = some i → t ≠ [] ∧ ∃ q, final.get? i = some q ∧ titleKeyOf q = t) →
      (∀ i q, final.get? i = some q → titleKeyOf q ≠ [] → lookupT seenT (titleKeyOf q) = some i) →
      (∀ q ∈ final, title_lower_of q.title = .ok (titleKeyOf q)) →
      ((out.map nameKeyOf).Nodup ∧
        (∀ q ∈ out, q ∈ final ∨ q ∈ l) ∧
        out.Pairwise (fun a b => titleKeyOf a ≠ [] → titleKeyOf a ≠ titleKeyOf b) ∧
        (∀ q ∈ out, title_lower_of q.title = .ok (titleKeyOf q))) := by
  intro l
  induction l with
  | nil =>
    intro final seenN seenT out h hN hSN hT1 hT2 hLow
    rw [regex_dedup_go] at h
    cases h
    refine ⟨hN, fun q hq => Or.inl hq, ?_, hLow⟩
    rw [List.pairwise_iff_get]
    intro i j hij hkey hEq
    have hgi : final.get? i = some (final.get i) := List.get?_eq_get i.2
    have hgj : final.get? j = some (final.get j) := List.get?_eq_get j.2
    have h1 := hT2 i _ hgi hkey
    have h2 := hT2 j _ hgj (by rw [← hEq]; exact hkey)
    rw [hEq] at h1
    rw [h1] at h2
    have hv : (i : Nat) = (j : Nat) := by injection h2
    have hlt : (i : Nat) < (j : Nat) := hij
    omega
  | cons p rest ih =>
    intro final seenN seenT out h hN hSN hT1 hT2 hLow
    rw [regex_dedup_go] at h
    split at h
    · exact absurd h (by simp)
    · rename_i tl htl
      have htlKey := title_lower_of_ok htl
      subst htlKey
      rw [show titleKeyOfJ p.title = titleKeyOf p from rfl] at htl h
      split at h
      · rename_i hmem
        obtain ⟨c1, c2, c3, c4⟩ := ih final seenN seenT out h hN hSN hT1 hT2 hLow
        exact ⟨c1, fun q hq => (c2 q hq).imp id (List.mem_cons_of_mem p), c3, c4⟩
      · rename_i hmem
        have hkp_not : nameKeyOf p ∉ final.map nameKeyOf := fun hc => hmem ((hSN _).mpr hc)
        split at h
        · -- title collision
          rename_i idx hidx
          have hkey_ne : titleKeyOf p ≠ [] := by
            intro hcon
            rw [hcon] at hidx
            simp at hidx
          have hlook : lookupT seenT (titleKeyOf p) = some idx := by
            rwa [if_neg (by simp [hkey_ne])] at hidx
          split at h
          · exact absurd h (by simp)
          · rename_i ex hex
            obtain ⟨_, q0, hq0, hq0key⟩ := hT1 _ _ hlook
            rw [hex] at hq0
            have hq0ex : ex = q0 := Option.some_inj.mp hq0
            subst hq0ex
            -- hq0key : titleKeyOf ex = titleKeyOf p
            dsimp only at h
            split at h
            · -- replacement
              rename_i hlooks
              have hmapget : (final.map nameKeyOf).get? idx = some (nameKeyOf ex) := by
                rw [List.get?_map, hex]; rfl
              have hN2 : ((final.set idx p).map nameKeyOf).Nodup := by
                rw [List.map_set]
                exact nodup_set_of_not_mem hN hkp_not
              have hSN2 : ∀ s, memS s (nameKeyOf p ::
                  seenN.filter (fun s => s ≠ pyStrip (lowerL ex.name))) = true ↔
                  s ∈ (final.set idx p).map nameKeyOf := by
                intro s
                rw [List.map_set, mem_set_nodup hN hmapget]
                have hmm : s ∈ seenN ↔ s ∈ final.map nameKeyOf := memS_iff.symm.trans (hSN s)
                simp only [memS, Bool.or_eq_true, decide_eq_true_eq, memS_iff,
                  List.mem_filter, hmm, nameKeyOf]
              have hT1b : ∀ t i, lookupT seenT t = some i →
                  t ≠ [] ∧ ∃ q, (final.set idx p).get? i = some q ∧ titleKeyOf q = t := by
                intro t i hti
                obtain ⟨htne, q, hq, hqk⟩ := hT1 _ _ hti
                by_cases hieq : i = idx
                · subst hieq
                  refine ⟨htne, p, ?_, ?_⟩
                  · rw [List.get?_set_eq, hex]; rfl
                  · rw [hex] at hq
                    have : ex = q := Option.some_inj.mp hq
                    subst this
                    rw [← hqk, hq0key]
                · refine ⟨htne, q, ?_, hqk⟩
                  rw [List.get?_set_ne _ _ (fun (hc : idx = i) => hieq hc.symm)]
                  exact hq
              have hT2b : ∀ i q, (final.set idx p).get? i = some q → titleKeyOf q ≠ [] →
                  lookupT seenT (titleKeyOf q) = some i := by
                intro i q hq hqne
                by_cases hieq : i = idx
                · subst hieq
                  rw [List.get?_set_eq, hex] at hq
                  have : p = q := Option.some_inj.mp hq
                  subst this
                  exact hlook
                · rw [List.get?_set_ne _ _ (fun (hc : idx = i) => hieq hc.symm)] at hq
                  exact hT2 i q hq hqne
              have hLow2 : ∀ q ∈ final.set idx p, title_lower_of q.title = .ok (titleKeyOf q) := by
                intro q hq
                rcases List.mem_or_eq_of_mem_set hq with hq | hq
                · exact hLow q hq
                · subst hq; exact htl
              obtain ⟨c1, c2, c3, c4⟩ := ih _ _ _ _ h hN2 hSN2 hT1b hT2b hLow2
              refine ⟨c1, fun q hq => ?_, c3, c4⟩
              rcases c2 q hq with hq2 | hq2
              · rcases List.mem_or_eq_of_mem_set hq2 with hq3 | hq3
                · exact Or.inl hq3
                · subst hq3; exact Or.inr (List.mem_cons_self _ _)
              · exact Or.inr (List.mem_cons_of_mem p hq2)
            · -- discard
              obtain ⟨c1, c2, c3, c4⟩ := ih final seenN seenT out h hN hSN hT1 hT2 hLow
              exact ⟨c1, fun q hq => (c2 q hq).imp id (List.mem_cons_of_mem p), c3, c4⟩
        · -- fresh append
          rename_i hidn
          have hN2 : ((final ++ [p]).map nameKeyOf).Nodup := by
            rw [List.map_append]
            rw [List.nodup_append]
            refine ⟨hN, List.nodup_singleton _, ?_⟩
            intro x hx
            simp only [List.map_cons, List.map_nil, List.mem_singleton]
            intro hc
            subst hc
            exact hkp_not hx
          have hSN2 : ∀ s, memS s (pyStrip (lowerL p.name) :: seenN) = true ↔
              s ∈ (final ++ [p]).map nameKeyOf := by
            intro s
            simp only [memS, Bool.or_eq_true, decide_eq_true_eq, List.map_append,
              List.map_cons, List.map_nil, List.mem_append, List.mem_singleton, hSN s]
            constructor
            · rintro (hs | hs)
              · exact Or.inr hs
              · exact Or.inl hs
            · rintro (hs | hs)
              · exact Or.inr hs
              · exact Or.inl hs
          have hGetLen : (final ++ [p]).get? final.length = some p := List.get?_concat_length _ _
          have hGetLt : ∀ i, i < final.length → (final ++ [p]).get? i = final.get? i := by
            intro i hi
            exact List.get?_append hi
          have hLow2 : ∀ q ∈ final ++ [p], title_lower_of q.title = .ok (titleKeyOf q) := by
            intro q hq
            rcases List.mem_append.mp hq with hq | hq
            · exact hLow q hq
            · rw [List.mem_singleton] at hq
              subst hq
              exact htl
          cases hkE : (titleKeyOf p).isEmpty with
          | true =>
            have hkeq : titleKeyOf p = [] := List.isEmpty_iff.mp hkE
            rw [if_pos hkE] at h
            have hT1b : ∀ t i, lookupT seenT t = some i →
                t ≠ [] ∧ ∃ q, (final ++ [p]).get? i = some q ∧ titleKeyOf q = t := by
              intro t i hti
              obtain ⟨htne, q, hq, hqk⟩ := hT1 _ _ hti
              have hilt : i < final.length := (List.get?_eq_some.mp hq).1
              exact ⟨htne, q, by rw [hGetLt i hilt]; exact hq, hqk⟩
            have hT2b : ∀ i q, (final ++ [p]).get? i = some q → titleKeyOf q ≠ [] →
                lookupT seenT (titleKeyOf q) = some i := by
              intro i q hq hqne
              have hilt : i < final.length + 1 := by
                have := (List.get?_eq_some.mp hq).1
                simpa using this
              by_cases hieq : i = final.length
              · subst hieq
                rw [hGetLen] at hq
                have : p = q := Option.some_inj.mp hq
                subst this
                exact absurd hkeq hqne
              · have hilt2 : i < final.length := by omega
                rw [hGetLt i hilt2] at hq
                exact hT2 i q hq hqne
            obtain ⟨c1, c2, c3, c4⟩ := ih _ _ _ _ h hN2 hSN2 hT1b hT2b hLow2
            refine ⟨c1, fun q hq => ?_, c3, c4⟩
            rcases c2 q hq with hq2 | hq2
            · rcases List.mem_append.mp hq2 with hq3 | hq3
              · exact Or.inl hq3
              · rw [List.mem_singleton] at hq3
                subst hq3
                exact Or.inr (List.mem_cons_self _ _)
            · exact Or.inr (List.mem_cons_of_mem p hq2)
          | false =>
            have hkne : titleKeyOf p ≠ [] := by
              intro hc
              rw [hc] at hkE
              simp at hkE
            rw [if_neg (by simp [hkE])] at h
            have hnolook : lookupT seenT (titleKeyOf p) = none := by
              rwa [if_neg (by simp [hkne])] at hidn
            have hT1b : ∀ t i, lookupT ((titleKeyOf p, final.length) :: seenT) t = some i →
                t ≠ [] ∧ ∃ q, (final ++ [p]).get? i = some q ∧ titleKeyOf q = t := by
              intro t i hti
              rw [lookupT_cons] at hti
              split at hti
              · rename_i hteq
                have : final.length = i := Option.some_inj.mp hti
                subst this
                exact ⟨hteq ▸ hkne, p, hGetLen, hteq⟩
              · obtain ⟨htne, q, hq, hqk⟩ := hT1 _ _ hti
                have hilt : i < final.length := (List.get?_eq_some.mp hq).1
                exact ⟨htne, q, by rw [hGetLt i hilt]; exact hq, hqk⟩
            have hT2b : ∀ i q, (final ++ [p]).get? i = some q → titleKeyOf q ≠ [] →
                lookupT ((titleKeyOf p, final.length) :: seenT) (titleKeyOf q) = some i := by
              intro i q hq hqne
              have hilt : i < final.length + 1 := by
                have := (List.get?_eq_some.mp hq).1
                simpa using this
              by_cases hieq : i = final.length
              · subst hieq
                rw [hGetLen] at hq
                have : p = q := Option.some_inj.mp hq
                subst this
                rw [lookupT_cons, if_pos rfl]
              · have hilt2 : i < final.length := by omega
                rw [hGetLt i hilt2] at hq
                have hold := hT2 i q hq hqne
                rw [lookupT_cons]
                rw [if_neg]
                · exact hold
                · intro hc
                  rw [hc] at hnolook
                  rw [hold] at hnolook
                  exact Option.noConfusion hnolook
            obtain ⟨c1, c2, c3, c4⟩ := ih _ _ _ _ h hN2 hSN2 hT1b hT2b hLow2
            refine ⟨c1, fun q hq => ?_, c3, c4⟩
            rcases c2 q hq with hq2 | hq2
            · rcases List.mem_append.mp hq2 with hq3 | hq3
              · exact Or.inl hq3
              · rw [List.mem_singleton] at hq3
                subst hq3
                exact Or.inr (List.mem_cons_self _ _)
            · exact Or.inr (List.mem_cons_of_mem p hq2)

lemma dedup_go_identity :
    ∀ (l final : List Prospect) (seenN : List (List Char)) (seenT : List (List Char × Nat)),
      (∀ p ∈ l, title_lower_of p.title = .ok (titleKeyOf p)) →
      (∀ p ∈ l, memS (nameKeyOf p) seenN = false) →
      l.Pairwise (fun a b => nameKeyOf a ≠ nameKeyOf b) →
      (∀ p ∈ l, titleKeyOf p ≠ [] → lookupT seenT (titleKeyOf p) = none) →
      l.Pairwise (fun a b => titleKeyOf a ≠ [] → titleKeyOf a ≠ titleKeyOf b) →
      regex_dedup_go l final seenN seenT = .ok (final ++ l) := by
  intro l
  induction l with
  | nil =>
    intro final seenN seenT _ _ _ _ _
    rw [regex_dedup_go]
    simp
  | cons p rest ih =>
    intro final seenN seenT hLow hFresh hNd hTFresh hTNd
    have hLowP := hLow p (List.mem_cons_self p rest)
    have hFreshP : memS (pyStrip (lowerL p.name)) seenN = false :=
      hFresh p (List.mem_cons_self p rest)
    rw [regex_dedup_go, hLowP]
    dsimp only
    rw [hFreshP]
    simp only [Bool.false_eq_true, if_false]
    rw [List.pairwise_cons] at hNd hTNd
    have hFresh2 : ∀ q ∈ rest, memS (nameKeyOf q) (pyStrip (lowerL p.name) :: seenN) = false := by
      intro q hq
      simp only [memS]
      rw [Bool.or_eq_false_iff]
      constructor
      · simp only [decide_eq_false_iff_not]
        exact fun hc => (hNd.1 q hq) (by rw [nameKeyOf, hc])
      · exact hFresh q (List.mem_cons_of_mem p hq)
    by_cases hk : titleKeyOf p = []
    · have hkE : (titleKeyOf p).isEmpty = true := by simp [hk]
      simp only [if_pos hkE]
      have := ih (final ++ [p]) (pyStrip (lowerL p.name) :: seenN) seenT
        (fun q hq => hLow q (List.mem_cons_of_mem p hq))
        hFresh2
        hNd.2
        (fun q hq hqne => hTFresh q (List.mem_cons_of_mem p hq) hqne)
        hTNd.2
      rw [this]
      simp
    · have hkE : ¬ ((titleKeyOf p).isEmpty = true) := by simp [hk]
      simp only [if_neg hkE]
      rw [hTFresh p (List.mem_cons_self p rest) hk]
      have := ih (final ++ [p]) (pyStrip (lowerL p.name) :: seenN)
        ((titleKeyOf p, final.length) :: seenT)
        (fun q hq => hLow q (List.mem_cons_of_mem p hq))
        hFresh2
        hNd.2
        (fun q hq hqne => by
          rw [lookupT_cons]
          rw [if_neg (fun hc => (hTNd.1 q hq hk) hc)]
          exact hTFresh q (List.mem_cons_of_mem p hq) hqne)
        hTNd.2
      rw [this]
      simp

lemma regex_dedup_pass_facts {l out : List Prospect}
    (h : regex_dedup_go l [] [] [] = .ok out) :
    (out.map nameKeyOf).Nodup ∧ (∀ q ∈ out, q ∈ l) ∧
      out.Pairwise (fun a b => titleKeyOf a ≠ [] → titleKeyOf a ≠ titleKeyOf b) ∧
      (∀ q ∈ out, title_lower_of q.title = .ok (titleKeyOf q)) := by
  obtain ⟨c1, c2, c3, c4⟩ := dedup_go_sound l [] [] [] out h (by simp)
    (by intro s; simp [memS]) (by intro t i h2; simp [lookupT] at h2)
    (by intro i q h2; simp at h2) (by simp)
  refine ⟨c1, fun q hq => ?_, c3, c4⟩
  rcases c2 q hq with hq2 | hq2
  · exact absurd hq2 (List.not_mem_nil q)
  · exact hq2

lemma regex_dedup_idempotent {l out : List Prospect}
    (h : regex_dedup_go l [] [] [] = .ok out) :
    regex_dedup_go out [] [] [] = .ok out := by
  obtain ⟨c1, _, c3, c4⟩ := regex_dedup_pass_facts h
  have := dedup_go_identity out [] [] [] c4
    (fun q _ => rfl)
    (by
      rw [← List.pairwise_map (f := nameKeyOf) (R := fun a b => a ≠ b)]
      exact c1)
    (fun q _ _ => rfl)
    c3
  simpa using this

lemma pyInJ_eq_false {x : Json} : ∀ {s : List Json}, pyInJ x s = false ↔ ∀ y ∈ s, pyEqJ x y = false := by
  intro s
  induction s with
  | nil => simp [pyInJ]
  | cons y ys ih =>
    simp only [pyInJ, Bool.or_eq_false_iff, ih, List.mem_cons]
    constructor
    · rintro ⟨h1, h2⟩ z (hz | hz)
      · subst hz; exact h1
      · exact h2 z hz
    · intro h
      exact ⟨h y (Or.inl rfl), fun z hz => h z (Or.inr hz)⟩

lemma cross_go_sound :
    ∀ (l : List Prospect) (seen : List Json) (acc : List Prospect),
      (∀ q ∈ acc, pyTruthy (crossKey q) = true) →
      (∀ q ∈ acc, crossKey q ∈ seen) →
      acc.Pairwise (fun a b => pyEqJ (crossKey b) (crossKey a) = false) →
      ((∀ q ∈ cross_dedup_go l seen acc, pyTruthy (crossKey q) = true) ∧
        (cross_dedup_go l seen acc).Pairwise
          (fun a b => pyEqJ (crossKey b) (crossKey a) = false)) := by
  intro l
  induction l with
  | nil =>
    intro seen acc h1 _ h3
    rw [cross_dedup_go]
    exact ⟨h1, h3⟩
  | cons p rest ih =>
    intro seen acc h1 h2 h3
    rw [cross_dedup_go]
    split
    · rename_i hcond
      rw [Bool.and_eq_true] at hcond
      have hfresh : ∀ y ∈ seen, pyEqJ (crossKey p) y = false := by
        have := hcond.2
        rw [Bool.not_eq_eq_eq_not] at this
        exact pyInJ_eq_false.mp (by simpa using this)
      refine ih (crossKey p :: seen) (acc ++ [p]) ?_ ?_ ?_
      · intro q hq
        rcases List.mem_append.mp hq with hq | hq
        · exact h1 q hq
        · rw [List.mem_singleton] at hq
          subst hq
          exact hcond.1
      · intro q hq
        rcases List.mem_append.mp hq with hq | hq
        · exact List.mem_cons_of_mem _ (h2 q hq)
        · rw [List.mem_singleton] at hq
          subst hq
          exact List.mem_cons_self _ _
      · rw [List.pairwise_append]
        refine ⟨h3, List.pairwise_singleton _ _, ?_⟩
        intro a ha b hb
        rw [List.mem_singleton] at hb
        subst hb
        exact hfresh (crossKey a) (h2 a ha)
    · exact ih seen acc h1 h2 h3

lemma cross_go_identity :
    ∀ (l : List Prospect) (seen : List Json) (acc : List Prospect),
      (∀ q ∈ l, pyTruthy (crossKey q) = true) →
      (∀ q ∈ l, pyInJ (crossKey q) seen = false) →
      l.Pairwise (fun a b => pyEqJ (crossKey b) (crossKey a) = false) →
      cross_dedup_go l seen acc = acc ++ l := by
  intro l
  induction l with
  | nil =>
    intro seen acc _ _ _
    rw [cross_dedup_go]
    simp
  | cons p rest ih =>
    intro seen acc h1 h2 h3
    rw [List.pairwise_cons] at h3
    rw [cross_dedup_go]
    rw [if_pos]
    · have := ih (crossKey p :: seen) (acc ++ [p])
        (fun q hq => h1 q (List.mem_cons_of_mem p hq))
        (fun q hq => by
          simp only [pyInJ, Bool.or_eq_false_iff]
          exact ⟨h3.1 q hq, h2 q (List.mem_cons_of_mem p hq)⟩)
        h3.2
      rw [this]
      simp
    · rw [Bool.and_eq_true]
      refine ⟨h1 p (List.mem_cons_self p rest), ?_⟩
      rw [h2 p (List.mem_cons_self p rest)]
      rfl

lemma cross_dedup_idempotent_aux (l : List Prospect) :
    cross_page_dedup (cross_page_dedup l) = cross_page_dedup l := by
  obtain ⟨h1, h2⟩ := cross_go_sound l [] [] (by simp) (by simp) (by simp)
  have := cross_go_identity (cross_dedup_go l [] []) [] []
    h1 (fun q _ => rfl) h2
  rw [cross_page_dedup, cross_page_dedup]
  rw [this]
  simp

lemma card_title_seg_scan_ne {kw nl t : List Char} :
    ∀ {segs : List (List Char)}, card_title_seg_scan kw nl segs = some t → lowerL t ≠ nl := by
  intro segs
  induction segs with
  | nil => simp [card_title_seg_scan]
  | cons seg rest ih =>
    intro h
    rw [card_title_seg_scan] at h
    split at h
    · rename_i hcond
      cases h
      simp only [Bool.and_eq_true, decide_eq_true_eq] at hcond
      exact hcond.1.2
    · exact ih h

lemma card_title_fallback_ne {text nl kw t : List Char}
    (h : card_title_fallback text nl kw = some t) : lowerL t ≠ nl := by
  rw [card_title_fallback] at h
  split at h
  · dsimp only at h
    split at h
    · rename_i hcond
      cases h
      simp only [Bool.and_eq_true, decide_eq_true_eq] at hcond
      exact hcond.2
    · exact absurd h (by simp)
  · exact absurd h (by simp)

lemma card_title_kw_loop_ne {text nl t : List Char} :
    ∀ {kws : List (List Char)}, card_title_kw_loop text nl kws = some t → lowerL t ≠ nl := by
  intro kws
  induction kws with
  | nil => simp [card_title_kw_loop]
  | cons kw rest ih =>
    intro h
    rw [card_title_kw_loop] at h
    split at h
    · split at h
      · rename_i hseg
        cases h
        exact card_title_seg_scan_ne hseg
      · split at h
        · rename_i hfb
          cases h
          exact card_title_fallback_ne hfb
        · exact ih h
    · exact ih h

lemma card_candidate_good {block text u name : List Char} {p0 : Prospect}
    (h : card_candidate block text u name = some p0) :
    p0.name = name ∧ p0.phone.isSome = true ∧
      (p0.title ≠ Json.null ∨ p0.email ≠ Json.null ∨ p0.linkedin_url ≠ Json.null ∨
        p0.phone ≠ some Json.null) ∧ p0.title ≠ Json.str p0.name := by
  rw [card_candidate.eq_def] at h
  dsimp only at h
  generalize hT : card_title_kw_loop text (lowerL name) card_title_keywords = tOpt at h
  generalize hE : pick_email (pyEmailFindall text) = eOpt at h
  generalize hL :
    (li_url_search false (lc "linkedin.com/in/") isCardLiC block).map rstripSlash = lOpt at h
  generalize hP : phone_search text = phOpt at h
  split at h
  · rename_i hgate
    cases h
    refine ⟨rfl, by simp, ?_, ?_⟩
    · cases tOpt with
      | some t2 => exact Or.inl (by simp [optJ])
      | none =>
        cases eOpt with
        | some t2 => exact Or.inr (Or.inl (by simp [optJ]))
        | none =>
          cases lOpt with
          | some t2 => exact Or.inr (Or.inr (Or.inl (by simp [optJ])))
          | none =>
            cases phOpt with
            | some t2 => exact Or.inr (Or.inr (Or.inr (by simp [optJ])))
            | none => simp [Option.isSome] at hgate
    · cases tOpt with
      | none => simp [optJ]
      | some t2 =>
        simp only [optJ]
        intro hc
        exact card_title_kw_loop_ne hT (by rw [Json.str.inj hc])
  · exact absurd h (by simp)

lemma card_process_names_sound (block text u : List Char) :
    ∀ (names seen : List (List Char)) (acc : List Prospect)
      (seen2 : List (List Char)) (acc2 : List Prospect),
      card_process_names block text u names seen acc = .ok (seen2, acc2) →
      (∀ s, memS s seen = true ↔ s ∈ acc.map (fun p => lowerL p.name)) →
      (acc.map (fun p => lowerL p.name)).Nodup →
      (∀ p ∈ acc, goodCardP p) →
      ((∀ s, memS s seen2 = true ↔ s ∈ acc2.map (fun p => lowerL p.name)) ∧
        (acc2.map (fun p => lowerL p.name)).Nodup ∧ (∀ p ∈ acc2, goodCardP p)) := by
  intro names
  induction names with
  | nil =>
    intro seen acc seen2 acc2 h hSN hN hG
    rw [card_process_names] at h
    cases h
    exact ⟨hSN, hN, hG⟩
  | cons nm0 rest ih =>
    intro seen acc seen2 acc2 h hSN hN hG
    rw [card_process_names] at h
    split at h
    · exact ih _ _ _ _ h hSN hN hG
    · split at h
      · exact ih _ _ _ _ h hSN hN hG
      · split at h
        · exact ih _ _ _ _ h hSN hN hG
        · split at h
          · exact ih _ _ _ _ h hSN hN hG
          · rename_i hlen hmem hskip hfirst
            split at h
            · exact ih _ _ _ _ h hSN hN hG
            · rename_i p0 hcand
              split at h
              · exact absurd h (by simp)
              · rename_i n hconf
                obtain ⟨hname, hphone, hgate, htne⟩ := card_candidate_good hcand
                have hnotmem : lowerL (pyStrip nm0) ∉ acc.map (fun p => lowerL p.name) :=
                  fun hc => hmem ((hSN _).mpr hc)
                have hpname : lowerL ({ p0 with confidence := n } : Prospect).name =
                    lowerL (pyStrip nm0) := by
                  simp [hname]
                apply ih _ _ _ _ h
                · intro s
                  simp only [memS, Bool.or_eq_true, decide_eq_true_eq, List.map_append,
                    List.map_cons, List.map_nil, List.mem_append, List.mem_singleton, hSN s,
                    hpname]
                  constructor
                  · rintro (hs | hs)
                    · exact Or.inr hs
                    · exact Or.inl hs
                  · rintro (hs | hs)
                    · exact Or.inr hs
                    · exact Or.inl hs
                · rw [List.map_append, List.nodup_append]
                  refine ⟨hN, by simp, ?_⟩
                  intro x hx
                  simp only [List.map_cons, List.map_nil, List.mem_singleton, hpname]
                  intro hc
                  subst hc
                  exact hnotmem hx
                · intro p hp
                  rcases List.mem_append.mp hp with hp | hp
                  · exact hG p hp
                  · rw [List.mem_singleton] at hp
                    subst hp
                    exact ⟨hgate, htne, hphone⟩

lemma card_blocks_loop_sound (u : List Char) :
    ∀ (blocks : List (List Char)) (seen : List (List Char)) (acc out : List Prospect),
      card_blocks_loop u blocks seen acc = .ok out →
      (∀ s, memS s seen = true ↔ s ∈ acc.map (fun p => lowerL p.name)) →
      (acc.map (fun p => lowerL p.name)).Nodup →
      (∀ p ∈ acc, goodCardP p) →
      ((out.map (fun p => lowerL p.name)).Nodup ∧ (∀ p ∈ out, goodCardP p)) := by
  intro blocks
  induction blocks with
  | nil =>
    intro seen acc out h hSN hN hG
    rw [card_blocks_loop] at h
    cases h
    exact ⟨hN, hG⟩
  | cons block rest ih =>
    intro seen acc out h hSN hN hG
    rw [card_blocks_loop] at h
    split at h
    · exact ih _ _ _ h hSN hN hG
    · split at h
      · exact ih _ _ _ h hSN hN hG
      · split at h
        · exact absurd h (by simp)
        · rename_i seen2 acc2 hpr
          obtain ⟨i1, i2, i3⟩ := card_process_names_sound block _ u _ _ _ _ _ hpr hSN hN hG
          exact ih _ _ _ h i1 i2 i3

lemma cards_facts {h u : List Char} {out : List Prospect}
    (hc : _extract_from_html_cards h u = .ok out) :
    (out.map (fun p => lowerL p.name)).Nodup ∧ (∀ p ∈ out, goodCardP p) := by
  rw [_extract_from_html_cards] at hc
  split at hc
  · cases hc
    simp
  · exact card_blocks_loop_sound u _ [] [] out hc (by intro s; simp [memS]) (by simp) (by simp)

lemma heading_candidate_good {content u : List Char} {endPos : Nat} {name : List Char}
    {p0 : Prospect} (h : heading_candidate content u endPos name = some p0) :
    p0.name = name ∧ goodHeadP p0 := by
  rw [heading_candidate.eq_def] at h
  dsimp only at h
  generalize hT : heading_title_lines
    ((splitNl (pySlice content endPos (endPos + 400))).take 6) = tOpt at h
  generalize hE : (pyEmailFindall (pySlice content endPos (endPos + 400))).head? = eOpt at h
  generalize hL : li_url_search false (lc "linkedin.com/in/") isHeadLiC
    (pySlice content endPos (endPos + 400)) = lOpt at h
  split at h
  · rename_i hgate
    cases h
    refine ⟨rfl, ?_, rfl⟩
    cases tOpt with
    | some t2 => exact Or.inl (by simp [optJ])
    | none =>
      cases eOpt with
      | some t2 => exact Or.inr (Or.inl (by simp [optJ]))
      | none =>
        cases lOpt with
        | some t2 => exact Or.inr (Or.inr (by simp [optJ]))
        | none => simp [Option.isSome] at hgate
  · exact absurd h (by simp)

lemma heading_loop_sound (content u : List Char) :
    ∀ (hs : List (Nat × List Char)) (seen : List (List Char)) (acc out : List Prospect),
      heading_loop content u hs seen acc = .ok out →
      (∀ s, memS s seen = true ↔ s ∈ acc.map (fun p => lowerL p.name)) →
      (acc.map (fun p => lowerL p.name)).Nodup →
      (∀ p ∈ acc, goodHeadP p) →
      ((out.map (fun p => lowerL p.name)).Nodup ∧ (∀ p ∈ out, goodHeadP p)) := by
  intro hs
  induction hs with
  | nil =>
    intro seen acc out h hSN hN hG
    rw [heading_loop] at h
    cases h
    exact ⟨hN, hG⟩
  | cons pr rest ih =>
    obtain ⟨endPos, nm0⟩ := pr
    intro seen acc out h hSN hN hG
    rw [heading_loop] at h
    split at h
    · exact ih _ _ _ h hSN hN hG
    · rename_i hcond
      rw [Bool.or_eq_true] at hcond
      push_neg at hcond
      split at h
      · exact ih _ _ _ h hSN hN hG
      · rename_i p0 hcand
        split at h
        · exact absurd h (by simp)
        · rename_i n hconf
          obtain ⟨hname, hgood⟩ := heading_candidate_good hcand
          have hmem : ¬ (memS (lowerL (pyStrip nm0)) seen = true) := by
            intro hc
            rcases hcond with ⟨h1, _⟩
            exact h1 hc
          have hnotmem : lowerL (pyStrip nm0) ∉ acc.map (fun p => lowerL p.name) :=
            fun hc => hmem ((hSN _).mpr hc)
          have hpname : lowerL ({ p0 with confidence := n } : Prospect).name =
              lowerL (pyStrip nm0) := by
            simp [hname]
          apply ih _ _ _ h
          · intro s
            simp only [memS, Bool.or_eq_true, decide_eq_true_eq, List.map_append,
              List.map_cons, List.map_nil, List.mem_append, List.mem_singleton, hSN s, hpname]
            constructor
            · rintro (h2 | h2)
              · exact Or.inr h2
              · exact Or.inl h2
            · rintro (h2 | h2)
              · exact Or.inr h2
              · exact Or.inl h2
          · rw [List.map_append, List.nodup_append]
            refine ⟨hN, by simp, ?_⟩
            intro x hx
            simp only [List.map_cons, List.map_nil, List.mem_singleton, hpname]
            intro hc
            subst hc
            exact hnotmem hx
          · intro p hp
            rcases List.mem_append.mp hp with hp | hp
            · exact hG p hp
            · rw [List.mem_singleton] at hp
              subst hp
              exact ⟨hgood.1, hgood.2⟩

lemma headings_facts {c u : List Char} {out : List Prospect}
    (hc : _extract_from_headings c u = .ok out) :
    (out.map (fun p => lowerL p.name)).Nodup ∧ (∀ p ∈ out, goodHeadP p) := by
  rw [_extract_from_headings] at hc
  split at hc
  · cases hc
    simp
  · exact heading_loop_sound c u _ [] [] out hc (by intro s; simp [memS]) (by simp) (by simp)

lemma regex_facts {c u : List Char} {out : List Prospect}
    (h : _extract_regex c u = .ok out) :
    (out.map nameKeyOf).Nodup ∧
      out.Pairwise (fun a b => titleKeyOf a ≠ [] → titleKeyOf a ≠ titleKeyOf b) ∧
      (∀ p ∈ out, goodRegexP p) := by
  rw [_extract_regex] at h
  split at h
  · cases h
    simp
  · split at h
    · exact absurd h (by simp)
    · rename_i raw hraw
      have hg := regex_candidates_loop_good hraw
      obtain ⟨c1, c2, c3, c4⟩ := regex_dedup_pass_facts h
      exact ⟨c1, c3, fun p hp => hg p (c2 p hp)⟩

lemma nameKey_pairwise_of_nodup {out : List Prospect}
    (h : (out.map nameKeyOf).Nodup) :
    out.Pairwise (fun p q => lowerL p.name ≠ lowerL q.name) := by
  have h2 : out.Pairwise (fun a b => nameKeyOf a ≠ nameKeyOf b) := List.pairwise_map.mp h
  refine h2.imp ?_
  intro a b hne hlow
  refine hne ?_
  rw [nameKeyOf, nameKeyOf, hlow]

lemma lowerName_pairwise_of_nodup {out : List Prospect}
    (h : (out.map (fun p => lowerL p.name)).Nodup) :
    out.Pairwise (fun p q => lowerL p.name ≠ lowerL q.name) := List.pairwise_map.mp h

lemma keep_larger_facts {cur out : List Prospect} {alt : Except PyErr (List Prospect)}
    (h : keep_larger cur alt = .ok out) :
    (out = cur ∨ alt = .ok out) ∧ cur.length ≤ out.length := by
  rw [keep_larger.eq_def] at h
  split at h
  · exact absurd h (by simp)
  · rename_i np
    cases h
    split
    · rename_i hlt
      rw [decide_eq_true_eq] at hlt
      exact ⟨Or.inr rfl, Nat.le_of_lt hlt⟩
    · exact ⟨Or.inl rfl, Nat.le_refl _⟩

lemma htmlTruthy_some {html : Option (List Char)} (h : htmlTruthy html = true) :
    ∃ hh, html = some hh ∧ html.getD [] = hh := by
  cases html with
  | none => simp [htmlTruthy] at h
  | some hh => exact ⟨hh, rfl, rfl⟩

/-- C1 amended: for every input whose trimmed length is under 20 characters
the regex strategy returns the empty list; the orchestrator may still return
candidates from the heading or html fallback strategies on such inputs. -/
theorem c1_short_content_regex_empty (content url : List Char)
    (h : (pyStrip content).length < 20) : _extract_regex content url = .ok [] := by
  rw [_extract_regex, if_pos (Or.inr h)]

/-- Witness for the C1 theorem at the 15 character heading input. -/
theorem c1_short_content_regex_empty_witness :
    (pyStrip mdShortHeading).length < 20 ∧ _extract_regex mdShortHeading srcU = .ok [] :=
  ⟨by decide, c1_short_content_regex_empty mdShortHeading srcU (by decide)⟩

/-- C2 amended: within one page the regex, card and heading strategies each
return candidate lists in which no two candidates share a lowercased name;
the structured-data strategy does not deduplicate and is excluded. -/
theorem c2_distinct_names_per_strategy :
    (∀ (c u : List Char) (l : List Prospect), _extract_regex c u = .ok l →
        l.Pairwise (fun p q => lowerL p.name ≠ lowerL q.name)) ∧
      (∀ (h u : List Char) (l : List Prospect), _extract_from_html_cards h u = .ok l →
        l.Pairwise (fun p q => lowerL p.name ≠ lowerL q.name)) ∧
      (∀ (c u : List Char) (l : List Prospect), _extract_from_headings c u = .ok l →
        l.Pairwise (fun p q => lowerL p.name ≠ lowerL q.name)) :=
  ⟨fun _ _ _ h => nameKey_pairwise_of_nodup (regex_facts h).1,
   fun _ _ _ h => lowerName_pairwise_of_nodup (cards_facts h).1,
   fun _ _ _ h => lowerName_pairwise_of_nodup (headings_facts h).1⟩

/-- Witness for the C2 theorem at the Jane Doe markdown. -/
theorem c2_distinct_names_per_strategy_witness :
    ([janeP1, janeP2] : List Prospect).Pairwise (fun p q => lowerL p.name ≠ lowerL q.name) :=
  c2_distinct_names_per_strategy.1 mdJane srcU [janeP1, janeP2] (by rfl)

/-- C3 amended: regex candidates always carry a title or a company; card
candidates carry a title, email, linkedin or phone; heading candidates carry
a title, email or linkedin; the structured-data strategy has no such gate
and may emit a bare name. -/
theorem c3_acceptance_gates :
    (∀ (c u : List Char) (l : List Prospect), _extract_regex c u = .ok l →
        ∀ p ∈ l, p.title ≠ Json.null ∨ p.company ≠ Json.null) ∧
      (∀ (h u : List Char) (l : List Prospect), _extract_from_html_cards h u = .ok l →
        ∀ p ∈ l, p.title ≠ Json.null ∨ p.email ≠ Json.null ∨ p.linkedin_url ≠ Json.null ∨
          p.phone ≠ some Json.null) ∧
      (∀ (c u : List Char) (l : List Prospect), _extract_from_headings c u = .ok l →
        ∀ p ∈ l, p.title ≠ Json.null ∨ p.email ≠ Json.null ∨ p.linkedin_url ≠ Json.null) :=
  ⟨fun _ _ _ h p hp => ((regex_facts h).2.2 p hp).2.1,
   fun _ _ _ h p hp => ((cards_facts h).2 p hp).1,
   fun _ _ _ h p hp => ((headings_facts h).2 p hp).1⟩

/-- Witness for the C3 theorem at the first Jane Doe candidate. -/
theorem c3_acceptance_gates_witness :
    janeP1.title ≠ Json.null ∨ janeP1.company ≠ Json.null :=
  c3_acceptance_gates.1 mdJane srcU [janeP1, janeP2] (by rfl) janeP1
    (List.mem_cons_self _ _)

/-- C7 amended: the regex and card strategies never return a candidate whose
title equals its name; the heading and structured-data strategies lack the
self-match exclusion. -/
theorem c7_no_self_title_regex_cards :
    (∀ (c u : List Char) (l : List Prospect), _extract_regex c u = .ok l →
        ∀ p ∈ l, p.title ≠ Json.str p.name) ∧
      (∀ (h u : List Char) (l : List Prospect), _extract_from_html_cards h u = .ok l →
        ∀ p ∈ l, p.title ≠ Json.str p.name) :=
  ⟨fun _ _ _ h p hp => ((regex_facts h).2.2 p hp).2.2.1,
   fun _ _ _ h p hp => ((cards_facts h).2 p hp).2.1⟩

/-- Witness for the C7 theorem at the first Jane Doe candidate. -/
theorem c7_no_self_title_regex_cards_witness : janeP1.title ≠ Json.str janeP1.name :=
  c7_no_self_title_regex_cards.1 mdJane srcU [janeP1, janeP2] (by rfl) janeP1
    (List.mem_cons_self _ _)

/-- C8: both deduplication passes are idempotent: the intra-page pass of the
regex strategy returns its own output unchanged, and so does the cross-page
identity-key pass. -/
theorem c8_dedup_idempotent :
    (∀ (l out : List Prospect), regex_dedup_go l [] [] [] = .ok out →
        regex_dedup_go out [] [] [] = .ok out) ∧
      (∀ l : List Prospect, cross_page_dedup (cross_page_dedup l) = cross_page_dedup l) :=
  ⟨fun _ _ h => regex_dedup_idempotent h, cross_dedup_idempotent_aux⟩

/-- Witness for the C8 theorem at the Jane Doe candidate list. -/
theorem c8_dedup_idempotent_witness :
    regex_dedup_go [janeP1, janeP2] [] [] [] = .ok [janeP1, janeP2] :=
  c8_dedup_idempotent.1 [janeP1, janeP2] [janeP1, janeP2] (by rfl)

/-- C9 amended: the regex strategy searches the window after the anchor only
for email and profile url; it performs no phone search and its candidate
records carry no phone key at all. -/
theorem c9_regex_no_phone_field :
    ∀ (c u : List Char) (l : List Prospect), _extract_regex c u = .ok l →
      ∀ p ∈ l, p.phone = none :=
  fun _ _ _ h p hp => ((regex_facts h).2.2 p hp).1

/-- Witness for the C9 theorem at the first Jane Doe candidate. -/
theorem c9_regex_no_phone_field_witness : janeP1.phone = none :=
  c9_regex_no_phone_field mdJane srcU [janeP1, janeP2] (by rfl) janeP1
    (List.mem_cons_self _ _)

/-- C10: in the deduplicated output of the regex strategy no two candidates
share an equal nonempty lowercased stripped title, so two distinct people
with the same title line collapse to one candidate. -/
theorem c10_regex_title_unique :
    ∀ (c u : List Char) (l : List Prospect), _extract_regex c u = .ok l →
      l.Pairwise (fun p q => titleKeyOf p ≠ [] → titleKeyOf p ≠ titleKeyOf q) :=
  fun _ _ _ h => (regex_facts h).2.1

/-- Witness for the C10 theorem at the Jane Doe candidate list. -/
theorem c10_regex_title_unique_witness :
    ([janeP1, janeP2] : List Prospect).Pairwise
      (fun p q => titleKeyOf p ≠ [] → titleKeyOf p ≠ titleKeyOf q) :=
  c10_regex_title_unique mdJane srcU [janeP1, janeP2] (by rfl)

/-- C4 amended: when the regex result has at least two candidates it is final;
otherwise the card strategy and then, only while the result is still under
two, the structured-data and heading strategies are tried, each kept only
when strictly larger.  The final list is the output of one strategy run and
never smaller than the regex result, but it need not be the overall largest:
the structured-data run is skipped once the card result reaches the
threshold. -/
theorem c4_orchestrator_policy :
    ∀ (c u : List Char) (html : Option (List Char)) (l out : List Prospect),
      _extract_regex c u = .ok l →
      extract_prospects_from_content c u html = .ok out →
      (l.length ≤ out.length ∧ (2 ≤ l.length → out = l) ∧
        (out = l ∨
          (∃ hh, html = some hh ∧
            (_extract_from_html_cards hh u = .ok out ∨ _extract_from_jsonld hh u = .ok out)) ∨
          _extract_from_headings c u = .ok out)) := by
  intro c u html l out hReg hOut
  rw [extract_prospects_from_content.eq_def, hReg] at hOut
  dsimp only at hOut
  split at hOut
  · exact absurd hOut (by simp)
  · rename_i p2 hp2
    split at hOut
    · exact absurd hOut (by simp)
    · rename_i p3 hp3
      have hstep2 : (p2 = l ∨
          (l.length < 2 ∧ htmlTruthy html = true ∧
            _extract_from_html_cards (html.getD []) u = .ok p2)) ∧ l.length ≤ p2.length := by
        split at hp2
        · rename_i hcond
          rw [Bool.and_eq_true, decide_eq_true_eq] at hcond
          obtain ⟨h1, h2⟩ := keep_larger_facts hp2
          rcases h1 with h1 | h1
          · exact ⟨Or.inl h1, h2⟩
          · exact ⟨Or.inr ⟨hcond.1, hcond.2, h1⟩, h2⟩
        · cases hp2
          exact ⟨Or.inl rfl, Nat.le_refl _⟩
      have hstep3 : (p3 = p2 ∨
          (p2.length < 2 ∧ htmlTruthy html = true ∧
            _extract_from_jsonld (html.getD []) u = .ok p3)) ∧ p2.length ≤ p3.length := by
        split at hp3
        · rename_i hcond
          rw [Bool.and_eq_true, decide_eq_true_eq] at hcond
          obtain ⟨h1, h2⟩ := keep_larger_facts hp3
          rcases h1 with h1 | h1
          · exact ⟨Or.inl h1, h2⟩
          · exact ⟨Or.inr ⟨hcond.1, hcond.2, h1⟩, h2⟩
        · cases hp3
          exact ⟨Or.inl rfl, Nat.le_refl _⟩
      have hstep4 : (out = p3 ∨
          (p3.length < 2 ∧ _extract_from_headings c u = .ok out)) ∧
          p3.length ≤ out.length := by
        split at hOut
        · rename_i hcond
          rw [decide_eq_true_eq] at hcond
          obtain ⟨h1, h2⟩ := keep_larger_facts hOut
          rcases h1 with h1 | h1
          · exact ⟨Or.inl h1, h2⟩
          · exact ⟨Or.inr ⟨hcond, h1⟩, h2⟩
        · cases hOut
          exact ⟨Or.inl rfl, Nat.le_refl _⟩
      refine ⟨Nat.le_trans hstep2.2 (Nat.le_trans hstep3.2 hstep4.2), ?_, ?_⟩
      · intro hlen
        have hl2 : ¬ (l.length < 2) := by omega
        have hp2l : p2 = l := by
          rcases hstep2.1 with h1 | ⟨hlt, _, _⟩
          · exact h1
          · exact absurd hlt hl2
        have hp3l : p3 = l := by
          rcases hstep3.1 with h1 | ⟨hlt, _, _⟩
          · exact h1.trans hp2l
          · rw [hp2l] at hlt
            exact absurd hlt hl2
        rcases hstep4.1 with h1 | ⟨hlt, _⟩
        · exact h1.trans hp3l
        · rw [hp3l] at hlt
          exact absurd hlt hl2
      · rcases hstep4.1 with h4 | ⟨_, hhead⟩
        · subst h4
          rcases hstep3.1 with h3 | ⟨_, htr, hjson⟩
          · subst h3
            rcases hstep2.1 with h2 | ⟨_, htr, hcards⟩
            · exact Or.inl h2
            · obtain ⟨hh, hhtml, hgetd⟩ := htmlTruthy_some htr
              rw [hgetd] at hcards
              exact Or.inr (Or.inl ⟨hh, hhtml, Or.inl hcards⟩)
          · obtain ⟨hh, hhtml, hgetd⟩ := htmlTruthy_some htr
            rw [hgetd] at hjson
            exact Or.inr (Or.inl ⟨hh, hhtml, Or.inr hjson⟩)
        · exact Or.inr (Or.inr hhead)

/-- Witness for the C4 theorem at the Jane Doe markdown with no html. -/
theorem c4_orchestrator_policy_witness :
    ([janeP1, janeP2] : List Prospect).length ≤ ([janeP1, janeP2] : List Prospect).length ∧
      (2 ≤ ([janeP1, janeP2] : List Prospect).length →
        ([janeP1, janeP2] : List Prospect) = [janeP1, janeP2]) ∧
      (([janeP1, janeP2] : List Prospect) = [janeP1, janeP2] ∨
        (∃ hh, (none : Option (List Char)) = some hh ∧
          (_extract_from_html_cards hh srcU = .ok [janeP1, janeP2] ∨
            _extract_from_jsonld hh srcU = .ok [janeP1, janeP2])) ∨
        _extract_from_headings mdJane srcU = .ok [janeP1, janeP2]) :=
  c4_orchestrator_policy mdJane srcU none [janeP1, janeP2] [janeP1, janeP2] (by rfl) (by rfl)

end BDMProspect
